import Mathlib

set_option maxHeartbeats 1000000

namespace Filler

/-
Shallow embedding of the filler bot's decision engine, translated from
src/solution/src/types.rs and src/solution/src/game/ (game_state.rs,
move_validation.rs, scoring.rs, move_execution.rs).  2D arrays
(Vec of Vec in Rust) are embedded as total functions indexed row-then-column
together with the stored dimensions; i32 values are embedded as Int
(no computation below approaches the i32 range on protocol-sized inputs,
except where noted).  The repository also holds an older standalone variant
of several functions in src/solution/src/main.rs; the library version under
src/solution/src/game/ is the one embedded here, matching the spec's choice
of the phase-weighted scoring engine.
-/

/-- Players of the game, mirroring the Player enum in src/solution/src/types.rs. -/
inductive Player where
  | one
  | two
deriving DecidableEq

/-- Board cells, mirroring the Cell enum in src/solution/src/types.rs. -/
inductive Cell where
  | empty
  | player1
  | player2
deriving DecidableEq

/-- Piece cells, mirroring the PieceCell enum in src/solution/src/types.rs. -/
inductive PieceCell where
  | empty
  | filled
deriving DecidableEq

/-- A filled cell of the trimmed piece, relative to the trimmed top-left corner
(PieceOffset in src/solution/src/types.rs). -/
structure PieceOffset where
  dx : Int
  dy : Int
deriving DecidableEq

/-- A candidate anchor paired with its score (ScoredMove in
src/solution/src/types.rs). -/
structure ScoredMove where
  x : Int
  y : Int
  score : Int
deriving DecidableEq

/-- The total order on scored candidates (impl Ord for ScoredMove,
src/solution/src/types.rs lines 53-70): score descending, then lower y,
then lower x. -/
def ScoredMove.cmp (a other : ScoredMove) : Ordering :=
  let score_cmp := compare a.score other.score
  if score_cmp ≠ Ordering.eq then score_cmp
  else
    let y_cmp := compare other.y a.y
    if y_cmp ≠ Ordering.eq then y_cmp
    else compare other.x a.x

/-- The per-turn game state (GameState in src/solution/src/game/game_state.rs).
The fields the decision engine reads; parsing fields (symbols, weights) are
not consumed by the verified functions and are omitted. -/
structure GameState where
  player : Player
  board_width : Nat
  board_height : Nat
  board : Nat → Nat → Cell
  piece_width : Nat
  piece_height : Nat
  piece : Nat → Nat → PieceCell

/-- The mover's own cell colour. -/
def myCell (p : Player) : Cell :=
  match p with
  | .one => .player1
  | .two => .player2

/-- The opponent's cell colour. -/
def opCell (p : Player) : Cell :=
  match p with
  | .one => .player2
  | .two => .player1

/-- Integer range lo..=hi, the inclusive i32 range used by the anchor scans. -/
def intRange (lo hi : Int) : List Int :=
  (List.range (hi + 1 - lo).toNat).map (fun (i : Nat) => lo + (i : Int))

/-- All (x, y) positions of the board in row-major order (y outer, x inner),
the iteration order of the Rust double loops over the board. -/
def gridCells (s : GameState) : List (Nat × Nat) :=
  (List.range s.board_height).flatMap
    (fun y => (List.range s.board_width).map (fun x => (x, y)))

/-- The board cell a piece offset lands on, for anchor (x, y): board[y+dy][x+dx].
Callers below only evaluate it after checking 0 ≤ x+dx < width and 0 ≤ y+dy < height. -/
def boardAt (s : GameState) (x y : Int) (off : PieceOffset) : Cell :=
  s.board (y + off.dy).toNat (x + off.dx).toNat

/-- One step of the legality loop of is_legal_move
(src/solution/src/game/move_validation.rs, lines 10-23), with the running
own-overlap counter made explicit. -/
def isLegalAux (s : GameState) (x y : Int) : List PieceOffset → Int → Bool
  | [], own => own == 1
  | off :: rest, own =>
    if x + off.dx < 0 ∨ y + off.dy < 0 ∨ (s.board_width : Int) ≤ x + off.dx ∨
        (s.board_height : Int) ≤ y + off.dy then
      false
    else if boardAt s x y off = opCell s.player then
      false
    else if boardAt s x y off = myCell s.player then
      isLegalAux s x y rest (own + 1)
    else
      isLegalAux s x y rest own

/-- GameState::is_legal_move (src/solution/src/game/move_validation.rs, lines 5-25). -/
def is_legal_move (s : GameState) (x y : Int) (piece_offsets : List PieceOffset) : Bool :=
  isLegalAux s x y piece_offsets 0

/-- The offset cell is inside the board. -/
def offInBounds (s : GameState) (x y : Int) (off : PieceOffset) : Prop :=
  0 ≤ x + off.dx ∧ x + off.dx < (s.board_width : Int) ∧
  0 ≤ y + off.dy ∧ y + off.dy < (s.board_height : Int)

instance (s : GameState) (x y : Int) (off : PieceOffset) :
    Decidable (offInBounds s x y off) := by
  unfold offInBounds
  infer_instance

/-- One row of the anchor scan: all anchors (x, y) with x in
start_x..=end_x that pass the legality check, in increasing x order
(inner loop of find_legal_moves / emergency_move_search). -/
def scanRow (s : GameState) (piece_offsets : List PieceOffset)
    (start_x end_x y : Int) : List (Int × Int) :=
  ((intRange start_x end_x).filter (fun x => is_legal_move s x y piece_offsets)).map
    (fun x => (x, y))

/-- GameState::find_legal_moves (src/solution/src/game/move_validation.rs,
lines 27-48): bounded anchor scan over the window whose origin is the trim
correction, so printed coordinates stay non-negative. -/
def find_legal_moves (s : GameState) (piece_offsets : List PieceOffset)
    (trim_off_x trim_off_y : Int) : List (Int × Int) :=
  if s.piece_width > s.board_width ∨ s.piece_height > s.board_height then []
  else
    (intRange trim_off_y ((s.board_height : Int) - (s.piece_height : Int) + trim_off_y)).flatMap
      (fun y => scanRow s piece_offsets trim_off_x
        ((s.board_width : Int) - (s.piece_width : Int) + trim_off_x) y)

/-- GameState::emergency_move_search (src/solution/src/game/move_validation.rs,
lines 51-66): same scan window as find_legal_moves, without the
piece-larger-than-board early return. -/
def emergency_move_search (s : GameState) (piece_offsets : List PieceOffset)
    (trim_off_x trim_off_y : Int) : List (Int × Int) :=
  (intRange trim_off_y ((s.board_height : Int) - (s.piece_height : Int) + trim_off_y)).flatMap
    (fun y => scanRow s piece_offsets trim_off_x
      ((s.board_width : Int) - (s.piece_width : Int) + trim_off_x) y)

/-- GameState::count_empty_neighbors (src/solution/src/game/scoring.rs,
lines 6-26): number of in-bounds 4-connected neighbours of (x, y) that are empty. -/
def count_empty_neighbors (s : GameState) (x y : Nat) : Int :=
  ([((0 : Int), (1 : Int)), (1, 0), (0, -1), (-1, 0)]).foldl
    (fun count d =>
      if 0 ≤ (x : Int) + d.1 ∧ (x : Int) + d.1 < (s.board_width : Int) ∧
          0 ≤ (y : Int) + d.2 ∧ (y : Int) + d.2 < (s.board_height : Int) then
        if s.board ((y : Int) + d.2).toNat ((x : Int) + d.1).toNat = Cell.empty then
          count + 1
        else count
      else count) 0

/-- GameState::count_my_territory (src/solution/src/game/scoring.rs, lines 63-74). -/
def count_my_territory (s : GameState) : Int :=
  (((gridCells s).filter (fun c => s.board c.2 c.1 = myCell s.player)).length : Int)

/-- GameState::count_opponent_territory (src/solution/src/game/scoring.rs, lines 77-88). -/
def count_opponent_territory (s : GameState) : Int :=
  (((gridCells s).filter (fun c => s.board c.2 c.1 = opCell s.player)).length : Int)

/-- GameState::get_my_territory_positions (src/solution/src/game/scoring.rs,
lines 159-170): all cells owned by the mover, row-major. -/
def get_my_territory_positions (s : GameState) : List (Nat × Nat) :=
  (gridCells s).filter (fun c => s.board c.2 c.1 = myCell s.player)

/-- The opponent-adjacency count of one claimed cell: the inner direction loop
of score_move (src/solution/src/game/scoring.rs, lines 119-125). -/
def adjOpCount (s : GameState) (bx by2 : Nat) : Int :=
  ([((1 : Int), (0 : Int)), (-1, 0), (0, 1), (0, -1)]).foldl
    (fun n d =>
      if 0 ≤ (bx : Int) + d.1 ∧ 0 ≤ (by2 : Int) + d.2 ∧
          (bx : Int) + d.1 < (s.board_width : Int) ∧
          (by2 : Int) + d.2 < (s.board_height : Int) then
        if s.board ((by2 : Int) + d.2).toNat ((bx : Int) + d.1).toNat = opCell s.player then
          n + 1
        else n
      else n) 0

/-- The feature accumulator of the scoring loop
(src/solution/src/game/scoring.rs, lines 102-127): for each offset landing on
an empty board cell accumulate (new_cells, liberties, heat_sum, adj_op).
Board reads use the same toNat-cast indices as the Rust usize casts; the loop
is only evaluated on in-bounds anchors by its callers (see the safety claim). -/
def featureStep (s : GameState) (x y : Int) (dist : Nat → Nat → Int)
    (acc : Int × Int × Int × Int) (off : PieceOffset) : Int × Int × Int × Int :=
  if boardAt s x y off = Cell.empty then
    (acc.1 + 1,
     acc.2.1 + count_empty_neighbors s (x + off.dx).toNat (y + off.dy).toNat,
     (if dist (y + off.dy).toNat (x + off.dx).toNat > 0 then
        acc.2.2.1 + dist (y + off.dy).toNat (x + off.dx).toNat
      else acc.2.2.1),
     acc.2.2.2 + adjOpCount s (x + off.dx).toNat (y + off.dy).toNat)
  else acc

/-- The four feature totals of score_move for anchor (x, y). -/
def moveFeatures (s : GameState) (x y : Int) (dist : Nat → Nat → Int)
    (piece_offsets : List PieceOffset) : Int × Int × Int × Int :=
  piece_offsets.foldl (featureStep s x y dist) (0, 0, 0, 0)

/-- The phase-selected weights (w_new, w_lib, w_adj, w_heat) of score_move
(src/solution/src/game/scoring.rs, lines 131-137).  The Rust code compares
occ as f32 / total as f32 against 0.35 and 0.70; it is embedded as the exact
rational comparisons occ*20 < 7*total and occ*10 < 7*total.  The f32 constant
0.35 rounds below 7/20, so the two agree except for ratios within a relative
1e-7 of the thresholds, which requires boards of more than ten million cells;
every theorem below is insensitive to which of the three branches is taken. -/
def phaseWeights (occ total : Int) : Int × Int × Int × Int :=
  if occ * 20 < 7 * total then (150, 40, 15, -5)
  else if occ * 10 < 7 * total then (120, 20, 35, -15)
  else (200, 10, 50, -25)

/-- The connectivity fold of score_move (src/solution/src/game/scoring.rs,
lines 149-153): Manhattan distance from the anchor to the nearest own cell,
starting from i32::MAX. -/
def bestConn (s : GameState) (x y : Int) : Int :=
  (get_my_territory_positions s).foldl
    (fun best p =>
      if |x - (p.1 : Int)| + |y - (p.2 : Int)| < best then
        |x - (p.1 : Int)| + |y - (p.2 : Int)|
      else best)
    2147483647

/-- The phase weights of the current state: phaseWeights applied to the
occupancy my_t + op_t and the total cell count, as score_move computes them. -/
def scoreWeights (s : GameState) : Int × Int × Int × Int :=
  phaseWeights (count_my_territory s + count_opponent_territory s)
    ((s.board_width * s.board_height : Nat) : Int)

/-- The four weighted feature terms of score_move
(src/solution/src/game/scoring.rs, lines 139-143). -/
def scoreBase (s : GameState) (x y : Int) (dist : Nat → Nat → Int)
    (piece_offsets : List PieceOffset) : Int :=
  (moveFeatures s x y dist piece_offsets).1 * (scoreWeights s).1 +
  (moveFeatures s x y dist piece_offsets).2.1 * (scoreWeights s).2.1 +
  (moveFeatures s x y dist piece_offsets).2.2.2 * (scoreWeights s).2.2.1 +
  (moveFeatures s x y dist piece_offsets).2.2.1 * (scoreWeights s).2.2.2

/-- scoreBase plus the catch-up aggression bonus adj_op * 20 applied when the
mover is behind (src/solution/src/game/scoring.rs, line 146). -/
def scoreWithAggression (s : GameState) (x y : Int) (dist : Nat → Nat → Int)
    (piece_offsets : List PieceOffset) : Int :=
  if count_my_territory s < count_opponent_territory s then
    scoreBase s x y dist piece_offsets + (moveFeatures s x y dist piece_offsets).2.2.2 * 20
  else scoreBase s x y dist piece_offsets

/-- GameState::score_move (src/solution/src/game/scoring.rs, lines 90-157).
The zero-gain sentinel i32::MIN/4 is the literal -536870912; the final term is
the connectivity bonus of lines 149-154. -/
def score_move (s : GameState) (x y : Int) (dist : Nat → Nat → Int)
    (piece_offsets : List PieceOffset) : Int :=
  if (moveFeatures s x y dist piece_offsets).1 = 0 then -536870912
  else if count_my_territory s > 0 then
    scoreWithAggression s x y dist piece_offsets + (10 - min (bestConn s x y) 10) * 10
  else scoreWithAggression s x y dist piece_offsets

/-- score_move with the board reads of its feature loop bounds-checked:
none models the Rust panic from indexing self.board[by][bx] with by or bx
produced by an as-usize cast that is negative or beyond the dimensions
(src/solution/src/game/scoring.rs, lines 107-111). -/
def score_move_checked (s : GameState) (x y : Int) (dist : Nat → Nat → Int)
    (piece_offsets : List PieceOffset) : Option Int :=
  if piece_offsets.all (fun off => decide (offInBounds s x y off)) then
    some (score_move s x y dist piece_offsets)
  else none

/-- The bounding-box fold of trim_piece (src/solution/src/game/game_state.rs,
lines 161-175): running (min_row, max_row, min_col, max_col) over the filled
cells, started at (piece_height, 0, piece_width, 0), scanning row-major. -/
def pieceBoundsStep (s : GameState) (acc : Nat × Nat × Nat × Nat) (c : Nat × Nat) :
    Nat × Nat × Nat × Nat :=
  if s.piece c.2 c.1 = PieceCell.filled then
    (min acc.1 c.2, max acc.2.1 c.2, min acc.2.2.1 c.1, max acc.2.2.2 c.1)
  else acc

/-- All (col, row) positions of the piece grid in row-major order. -/
def pieceCells (s : GameState) : List (Nat × Nat) :=
  (List.range s.piece_height).flatMap
    (fun r => (List.range s.piece_width).map (fun c => (c, r)))

/-- The (min_row, max_row, min_col, max_col) bounds computed by trim_piece. -/
def pieceBounds (s : GameState) : Nat × Nat × Nat × Nat :=
  (pieceCells s).foldl (pieceBoundsStep s) (s.piece_height, 0, s.piece_width, 0)

/-- GameState::trim_piece (src/solution/src/game/game_state.rs, lines 159-203),
restricted to its returned triple (offsets, min_col, min_row); the in-place
update of the piece grid to the trimmed box is not consumed by the claims. -/
def trim_piece_result (s : GameState) : List PieceOffset × Int × Int :=
  if (pieceBounds s).1 > (pieceBounds s).2.1 ∨ (pieceBounds s).2.2.1 > (pieceBounds s).2.2.2 then
    ([], 0, 0)
  else
    ((List.range ((pieceBounds s).2.1 - (pieceBounds s).1 + 1)).flatMap
      (fun r => ((List.range ((pieceBounds s).2.2.2 - (pieceBounds s).2.2.1 + 1)).filter
        (fun c => s.piece ((pieceBounds s).1 + r) ((pieceBounds s).2.2.1 + c) =
          PieceCell.filled)).map
        (fun (c : Nat) => PieceOffset.mk (c : Int) (r : Int))),
      ((pieceBounds s).2.2.1 : Int), ((pieceBounds s).1 : Int))

/-- The BFS direction list of calculate_distance_map
(src/solution/src/game/game_state.rs, line 223). -/
def bfsDirections : List (Int × Int) := [(0, 1), (1, 0), (0, -1), (-1, 0)]

/-- One neighbour probe of the BFS inner loop
(src/solution/src/game/game_state.rs, lines 228-242): if the neighbour in
direction d is on the board and still carries the -1 sentinel, assign it
cur + 1 and append it to the pending queue. -/
def tryPush (s : GameState) (cur : Int) (x y : Nat)
    (st : (Nat → Nat → Int) × List (Nat × Nat)) (d : Int × Int) :
    (Nat → Nat → Int) × List (Nat × Nat) :=
  if 0 ≤ (x : Int) + d.1 ∧ (x : Int) + d.1 < (s.board_width : Int) ∧
      0 ≤ (y : Int) + d.2 ∧ (y : Int) + d.2 < (s.board_height : Int) then
    if st.1 ((y : Int) + d.2).toNat ((x : Int) + d.1).toNat = -1 then
      (fun j i => if j = ((y : Int) + d.2).toNat ∧ i = ((x : Int) + d.1).toNat then cur + 1
        else st.1 j i,
       st.2 ++ [(((x : Int) + d.1).toNat, ((y : Int) + d.2).toNat)])
    else st
  else st

/-- The BFS work loop of calculate_distance_map
(src/solution/src/game/game_state.rs, lines 225-243).  The Rust loop runs
until the VecDeque empties; here the loop is driven by a fuel counter so the
definition is structurally recursive, and calculate_distance_map passes fuel
that provably exceeds the number of iterations the Rust loop performs
(each iteration pops one cell and every push turns a -1 cell non-negative). -/
def bfsLoop (s : GameState) : Nat → (Nat → Nat → Int) → List (Nat × Nat) →
    (Nat → Nat → Int)
  | 0, dm, _ => dm
  | _ + 1, dm, [] => dm
  | fuel + 1, dm, c :: rest =>
    let cur := dm c.2 c.1
    let st := bfsDirections.foldl (tryPush s cur c.1 c.2) (dm, [])
    bfsLoop s fuel st.1 (rest ++ st.2)

/-- The initial distance map of calculate_distance_map: -1 everywhere except 0
on every opponent cell (src/solution/src/game/game_state.rs, lines 207-220). -/
def initialDistanceMap (s : GameState) : Nat → Nat → Int :=
  fun j i =>
    if i < s.board_width ∧ j < s.board_height ∧ s.board j i = opCell s.player then 0
    else -1

/-- The initial BFS queue: every opponent cell, enqueued in the row-major
order of the initialisation loops. -/
def initialQueue (s : GameState) : List (Nat × Nat) :=
  (gridCells s).filter (fun c => s.board c.2 c.1 = opCell s.player)

/-- GameState::calculate_distance_map (src/solution/src/game/game_state.rs,
lines 206-246): multi-source BFS from all opponent cells.  The fuel
board_width*board_height + queue length strictly bounds the Rust loop's
iteration count, so the result equals the Rust fixpoint. -/
def calculate_distance_map (s : GameState) : Nat → Nat → Int :=
  bfsLoop s (s.board_width * s.board_height + (initialQueue s).length)
    (initialDistanceMap s) (initialQueue s)

/-- The selection loop of make_move (src/solution/src/game/move_execution.rs,
lines 22-28): scan the candidate list keeping the first strictly improving
score, starting from the given current best and best score. -/
def selectBest (s : GameState) (dm : Nat → Nat → Int) (piece_offsets : List PieceOffset) :
    List (Int × Int) → (Int × Int) → Int → (Int × Int)
  | [], best, _ => best
  | m :: rest, best, best_score =>
    if best_score < score_move s m.1 m.2 dm piece_offsets then
      selectBest s dm piece_offsets rest m (score_move s m.1 m.2 dm piece_offsets)
    else
      selectBest s dm piece_offsets rest best best_score

/-- The candidate list make_move actually scores: the bounded scan, falling
back to the emergency scan when it is empty
(src/solution/src/game/move_execution.rs, lines 10-14). -/
def effective_legal_moves (s : GameState) (piece_offsets : List PieceOffset)
    (trim_off_x trim_off_y : Int) : List (Int × Int) :=
  if (find_legal_moves s piece_offsets trim_off_x trim_off_y).isEmpty then
    emergency_move_search s piece_offsets trim_off_x trim_off_y
  else find_legal_moves s piece_offsets trim_off_x trim_off_y

/-- The anchor make_move selects, none when even the emergency scan is empty
(src/solution/src/game/move_execution.rs, lines 16-28). -/
def selected_move (s : GameState) (piece_offsets : List PieceOffset)
    (trim_off_x trim_off_y : Int) : Option (Int × Int) :=
  let dm := calculate_distance_map s
  match effective_legal_moves s piece_offsets trim_off_x trim_off_y with
  | [] => none
  | m :: rest =>
    some (selectBest s dm piece_offsets (m :: rest) m (score_move s m.1 m.2 dm piece_offsets))

/-- The pair of integers make_move prints
(src/solution/src/game/move_execution.rs, lines 16-38): the pass sentinel
0 0 when no legal move survives the emergency search, otherwise the winning
trimmed anchor translated back to the original piece frame and clamped at 0. -/
def make_move_output (s : GameState) (piece_offsets : List PieceOffset)
    (trim_off_x trim_off_y : Int) : Int × Int :=
  match selected_move s piece_offsets trim_off_x trim_off_y with
  | none => (0, 0)
  | some best => (max (best.1 - trim_off_x) 0, max (best.2 - trim_off_y) 0)

/-- (x, y) is a position of the board grid. -/
def inGrid (s : GameState) (c : Nat × Nat) : Prop :=
  c.1 < s.board_width ∧ c.2 < s.board_height

instance (s : GameState) (c : Nat × Nat) : Decidable (inGrid s c) := by
  unfold inGrid
  infer_instance

/-- 4-connected adjacency of grid positions. -/
def adjacentCells (c c2 : Nat × Nat) : Prop :=
  (c.1 = c2.1 ∧ (c.2 + 1 = c2.2 ∨ c2.2 + 1 = c.2)) ∨
  (c.2 = c2.2 ∧ (c.1 + 1 = c2.1 ∨ c2.1 + 1 = c.1))

/-- c is an opponent-owned cell. -/
def isOppCell (s : GameState) (c : Nat × Nat) : Prop :=
  s.board c.2 c.1 = opCell s.player

/-- There is a 4-connected path of d steps inside the board from some
opponent cell to c; the shortest-path distance of the specification is the
least such d. -/
inductive Reach (s : GameState) : Nat × Nat → Nat → Prop
  | base (c : Nat × Nat) : inGrid s c → isOppCell s c → Reach s c 0
  | step (c c2 : Nat × Nat) (d : Nat) :
      Reach s c d → adjacentCells c c2 → inGrid s c2 → Reach s c2 (d + 1)

/-- Lexicographic order on anchors by lower y then lower x: the order in which
the scan loops enumerate anchors. -/
def anchorLexLt (a b : Int × Int) : Prop :=
  a.2 < b.2 ∨ (a.2 = b.2 ∧ a.1 < b.1)

/-- c is a filled cell of the piece grid (c = (column, row)). -/
def pieceFilledAt (s : GameState) (c : Nat × Nat) : Prop :=
  s.piece c.2 c.1 = PieceCell.filled

instance (s : GameState) (c : Nat × Nat) : Decidable (pieceFilledAt s c) := by
  unfold pieceFilledAt
  infer_instance

/-- Build a board function from a row-major list of rows (concrete test data). -/
def mkBoard (rows : List (List Cell)) : Nat → Nat → Cell :=
  fun j i => (rows.getD j []).getD i Cell.empty

/-- Build a piece function from a row-major list of rows (concrete test data). -/
def mkPiece (rows : List (List PieceCell)) : Nat → Nat → PieceCell :=
  fun j i => (rows.getD j []).getD i PieceCell.empty

/-- Concrete turn used by the evaluation witnesses: a 3 by 2 board where the
mover (player one) owns (0,0), the opponent owns (2,1), and the piece is a
horizontal domino. -/
def stateA : GameState where
  player := .one
  board_width := 3
  board_height := 2
  board := mkBoard [[.player1, .empty, .empty], [.empty, .empty, .player2]]
  piece_width := 2
  piece_height := 1
  piece := mkPiece [[.filled, .filled]]

/-- The trimmed offsets of the stateA piece: a horizontal domino. -/
def offsA : List PieceOffset := [⟨0, 0⟩, ⟨1, 0⟩]

/-- Concrete turn used by the scoring witnesses: a 4 by 1 board owned by the
mover except one empty cell, with a piece whose single filled cell sits one
column right of the piece origin. -/
def stateB : GameState where
  player := .one
  board_width := 4
  board_height := 1
  board := mkBoard [[.player1, .player1, .empty, .player1]]
  piece_width := 2
  piece_height := 1
  piece := mkPiece [[.empty, .filled]]

/-- The offsets of the stateB piece (untrimmed frame): one cell at (1, 0). -/
def offsB : List PieceOffset := [⟨1, 0⟩]

/-- Concrete turn on which the scan-window behaviour is exercised: a 1 by 1
board owned by the mover, with a 1 by 1 trimmed piece whose trim correction is
(1, 0) (the original piece grid had its only filled cell in column 1). -/
def stateP : GameState where
  player := .one
  board_width := 1
  board_height := 1
  board := mkBoard [[.player1]]
  piece_width := 1
  piece_height := 1
  piece := mkPiece [[.filled]]

/-- The trimmed offsets of the stateP piece. -/
def offsP : List PieceOffset := [⟨0, 0⟩]

instance (s : GameState) (c : Nat × Nat) : Decidable (isOppCell s c) := by
  unfold isOppCell
  infer_instance

/-- The number of board cells still carrying the -1 sentinel: the BFS loop's
termination measure together with the queue length. -/
def unvisitedCount (s : GameState) (dm : Nat → Nat → Int) : Nat :=
  ((Finset.range s.board_width ×ˢ Finset.range s.board_height).filter
    (fun c => dm c.2 c.1 = -1)).card

/-- The invariant of the BFS work loop: queued cells are on the board and
already assigned; assigned values are the exact shortest distances; opponent
cells carry 0; a visited cell is in the queue or has all neighbours visited;
queue values are sorted and spread by at most one; and every cell whose true
distance is at most the front value is already visited. -/
def BfsInv (s : GameState) (dm : Nat → Nat → Int) (q : List (Nat × Nat)) : Prop :=
  (∀ p ∈ q, inGrid s p ∧ 0 ≤ dm p.2 p.1) ∧
  q.Nodup ∧
  (∀ j i, dm j i ≠ -1 →
    i < s.board_width ∧ j < s.board_height ∧ 0 ≤ dm j i ∧
    Reach s (i, j) (dm j i).toNat ∧
    ∀ d : Nat, (d : Int) < dm j i → ¬ Reach s (i, j) d) ∧
  (∀ j i, i < s.board_width → j < s.board_height → isOppCell s (i, j) → dm j i = 0) ∧
  (∀ j i, dm j i ≠ -1 → (i, j) ∈ q ∨
    ∀ p, adjacentCells (i, j) p → inGrid s p → dm p.2 p.1 ≠ -1) ∧
  q.Pairwise (fun a b => dm a.2 a.1 ≤ dm b.2 b.1) ∧
  (∀ a ∈ q, ∀ b ∈ q, dm b.2 b.1 ≤ dm a.2 a.1 + 1) ∧
  (∀ f rest, q = f :: rest → ∀ p, ∀ d : Nat, Reach s p d →
    (d : Int) ≤ dm f.2 f.1 → dm p.2 p.1 ≠ -1)

/-- What holds of the distance map when the BFS queue has drained: assigned
values are exact shortest distances, opponent cells are 0, and the visited
region is closed under adjacency. -/
def BfsFinal (s : GameState) (dm : Nat → Nat → Int) : Prop :=
  (∀ j i, dm j i ≠ -1 →
    i < s.board_width ∧ j < s.board_height ∧ 0 ≤ dm j i ∧
    Reach s (i, j) (dm j i).toNat ∧
    ∀ d : Nat, (d : Int) < dm j i → ¬ Reach s (i, j) d) ∧
  (∀ j i, i < s.board_width → j < s.board_height → isOppCell s (i, j) → dm j i = 0) ∧
  (∀ j i, dm j i ≠ -1 → ∀ p, adjacentCells (i, j) p → inGrid s p → dm p.2 p.1 ≠ -1)

end Filler

namespace Filler

theorem myCell_ne_opCell (p : Player) : myCell p ≠ opCell p := by
  cases p <;> simp [myCell, opCell]

theorem mem_intRange {lo hi x : Int} : x ∈ intRange lo hi ↔ lo ≤ x ∧ x ≤ hi := by
  unfold intRange
  simp only [List.mem_map, List.mem_range]
  constructor
  · rintro ⟨i, hi2, rfl⟩
    omega
  · rintro ⟨h1, h2⟩
    exact ⟨(x - lo).toNat, by omega, by omega⟩

theorem intRange_pairwise (lo hi : Int) : (intRange lo hi).Pairwise (· < ·) := by
  unfold intRange
  have h := List.pairwise_lt_range (hi + 1 - lo).toNat
  refine List.Pairwise.map _ ?_ h
  intro a b hab
  omega

theorem mem_gridCells {s : GameState} {c : Nat × Nat} :
    c ∈ gridCells s ↔ c.1 < s.board_width ∧ c.2 < s.board_height := by
  unfold gridCells
  cases c with
  | mk x y =>
    simp only [List.mem_flatMap, List.mem_map, List.mem_range, Prod.mk.injEq]
    constructor
    · rintro ⟨y0, hy, x0, hx, rfl, rfl⟩
      exact ⟨hx, hy⟩
    · rintro ⟨hx, hy⟩
      exact ⟨y, hy, x, hx, rfl, rfl⟩

theorem isLegalAux_characterization (s : GameState) (x y : Int)
    (offs : List PieceOffset) (own : Int) :
    isLegalAux s x y offs own = true ↔
      (∀ off ∈ offs, offInBounds s x y off) ∧
      (∀ off ∈ offs, boardAt s x y off ≠ opCell s.player) ∧
      own + (offs.countP (fun off => boardAt s x y off = myCell s.player)) = 1 := by
  induction offs generalizing own with
  | nil =>
    simp only [isLegalAux, beq_iff_eq, List.countP_nil, List.not_mem_nil, false_implies,
      implies_true, true_and]
    omega
  | cons off rest ih =>
    by_cases hb : (x + off.dx < 0 ∨ y + off.dy < 0 ∨ (s.board_width : Int) ≤ x + off.dx ∨
        (s.board_height : Int) ≤ y + off.dy)
    · have hnb : ¬ offInBounds s x y off := by
        unfold offInBounds; omega
      simp only [isLegalAux, if_pos hb, Bool.false_eq_true, false_iff]
      intro h
      exact hnb (h.1 off (List.mem_cons_self _ _))
    · have hband : offInBounds s x y off := by
        unfold offInBounds; omega
      by_cases hop : boardAt s x y off = opCell s.player
      · simp only [isLegalAux, if_neg hb, if_pos hop, Bool.false_eq_true, false_iff]
        intro h
        exact (h.2.1 off (List.mem_cons_self _ _)) hop
      · by_cases hmy : boardAt s x y off = myCell s.player
        · simp only [isLegalAux, if_neg hb, if_neg hop, if_pos hmy]
          rw [ih]
          simp only [List.countP_cons, List.mem_cons]
          constructor
          · rintro ⟨h1, h2, h3⟩
            refine ⟨?_, ?_, ?_⟩
            · rintro o (rfl | ho)
              · exact hband
              · exact h1 o ho
            · rintro o (rfl | ho)
              · exact hop
              · exact h2 o ho
            · simp only [decide_eq_true_eq, if_pos hmy]
              push_cast
              omega
          · rintro ⟨h1, h2, h3⟩
            refine ⟨fun o ho => h1 o (Or.inr ho), fun o ho => h2 o (Or.inr ho), ?_⟩
            simp only [decide_eq_true_eq, if_pos hmy] at h3
            push_cast at h3 ⊢
            omega
        · simp only [isLegalAux, if_neg hb, if_neg hop, if_neg hmy]
          rw [ih]
          simp only [List.countP_cons, List.mem_cons]
          constructor
          · rintro ⟨h1, h2, h3⟩
            refine ⟨?_, ?_, ?_⟩
            · rintro o (rfl | ho)
              · exact hband
              · exact h1 o ho
            · rintro o (rfl | ho)
              · exact hop
              · exact h2 o ho
            · simp only [decide_eq_true_eq, if_neg hmy]
              push_cast
              omega
          · rintro ⟨h1, h2, h3⟩
            refine ⟨fun o ho => h1 o (Or.inr ho), fun o ho => h2 o (Or.inr ho), ?_⟩
            simp only [decide_eq_true_eq, if_neg hmy] at h3
            push_cast at h3 ⊢
            omega

theorem is_legal_move_iff (s : GameState) (x y : Int) (offs : List PieceOffset) :
    is_legal_move s x y offs = true ↔
      (∀ off ∈ offs, offInBounds s x y off) ∧
      (∀ off ∈ offs, boardAt s x y off ≠ opCell s.player) ∧
      offs.countP (fun off => boardAt s x y off = myCell s.player) = 1 := by
  unfold is_legal_move
  rw [isLegalAux_characterization]
  constructor
  · rintro ⟨h1, h2, h3⟩
    exact ⟨h1, h2, by omega⟩
  · rintro ⟨h1, h2, h3⟩
    exact ⟨h1, h2, by omega⟩

theorem mem_scanRow {s : GameState} {offs : List PieceOffset} {sx ex y : Int}
    {m : Int × Int} :
    m ∈ scanRow s offs sx ex y ↔
      m.2 = y ∧ sx ≤ m.1 ∧ m.1 ≤ ex ∧ is_legal_move s m.1 y offs = true := by
  unfold scanRow
  simp only [List.mem_map, List.mem_filter, mem_intRange, decide_eq_true_eq]
  constructor
  · rintro ⟨x, ⟨⟨hx1, hx2⟩, hleg⟩, rfl⟩
    exact ⟨rfl, hx1, hx2, hleg⟩
  · rintro ⟨hy, hx1, hx2, hleg⟩
    exact ⟨m.1, ⟨⟨hx1, hx2⟩, hy ▸ hleg⟩, by cases m; simp_all⟩

theorem mem_emergency {s : GameState} {offs : List PieceOffset} {tox toy : Int}
    {m : Int × Int} :
    m ∈ emergency_move_search s offs tox toy ↔
      toy ≤ m.2 ∧ m.2 ≤ (s.board_height : Int) - (s.piece_height : Int) + toy ∧
      tox ≤ m.1 ∧ m.1 ≤ (s.board_width : Int) - (s.piece_width : Int) + tox ∧
      is_legal_move s m.1 m.2 offs = true := by
  unfold emergency_move_search
  simp only [List.mem_flatMap, mem_intRange, mem_scanRow]
  constructor
  · rintro ⟨y, ⟨hy1, hy2⟩, hym, hx1, hx2, hleg⟩
    subst hym
    exact ⟨hy1, hy2, hx1, hx2, hleg⟩
  · rintro ⟨hy1, hy2, hx1, hx2, hleg⟩
    exact ⟨m.2, ⟨hy1, hy2⟩, rfl, hx1, hx2, hleg⟩

theorem mem_find_legal_moves {s : GameState} {offs : List PieceOffset} {tox toy : Int}
    {m : Int × Int} :
    m ∈ find_legal_moves s offs tox toy ↔
      ¬(s.piece_width > s.board_width ∨ s.piece_height > s.board_height) ∧
      m ∈ emergency_move_search s offs tox toy := by
  unfold find_legal_moves emergency_move_search
  by_cases hg : (s.piece_width > s.board_width ∨ s.piece_height > s.board_height)
  · simp [hg]
  · rw [if_neg hg]
    simp only [hg, not_false_eq_true, true_and]

/-- C1: for every board, anchor (x, y) and offset list, is_legal_move returns
true if and only if every cell anchor+offset lies inside the board, no such
cell is owned by the opponent, and the own-overlap count is exactly one; in
particular any offset cell falling outside the board makes the placement
illegal. -/
theorem claim_C1_is_legal_move_characterization (s : GameState) (x y : Int)
    (offs : List PieceOffset) :
    (is_legal_move s x y offs = true ↔
      (∀ off ∈ offs, offInBounds s x y off) ∧
      (∀ off ∈ offs, boardAt s x y off ≠ opCell s.player) ∧
      offs.countP (fun off => boardAt s x y off = myCell s.player) = 1) ∧
    (∀ off ∈ offs, ¬ offInBounds s x y off → is_legal_move s x y offs = false) := by
  refine ⟨is_legal_move_iff s x y offs, ?_⟩
  intro off hoff hnb
  rcases h : is_legal_move s x y offs with _ | _
  · rfl
  · exact absurd (((is_legal_move_iff s x y offs).1 h).1 off hoff) hnb

/-- Evaluation of C1 on a concrete turn: the domino anchored at (0,0) of
stateA is legal and satisfies the characterization; anchored at (2,0) it
hangs off the board and is rejected. -/
theorem claim_C1_witness :
    ((∀ off ∈ offsA, offInBounds stateA 0 0 off) ∧
      (∀ off ∈ offsA, boardAt stateA 0 0 off ≠ opCell stateA.player) ∧
      offsA.countP (fun off => boardAt stateA 0 0 off = myCell stateA.player) = 1 →
      is_legal_move stateA 0 0 offsA = true) ∧
    is_legal_move stateA 2 0 offsA = false := by
  constructor
  · intro h
    exact (claim_C1_is_legal_move_characterization stateA 0 0 offsA).1.2 h
  · refine (claim_C1_is_legal_move_characterization stateA 2 0 offsA).2 ⟨1, 0⟩
      (by decide) (by decide)

/-- C8: every anchor returned by find_legal_moves satisfies the legality
predicate when independently re-checked, and the anchors returned by
emergency_move_search are a superset of those returned by find_legal_moves. -/
theorem claim_C8_find_sound_emergency_superset (s : GameState)
    (offs : List PieceOffset) (tox toy : Int) :
    (∀ m ∈ find_legal_moves s offs tox toy, is_legal_move s m.1 m.2 offs = true) ∧
    (∀ m ∈ find_legal_moves s offs tox toy, m ∈ emergency_move_search s offs tox toy) := by
  constructor
  · intro m hm
    exact (mem_emergency.1 (mem_find_legal_moves.1 hm).2).2.2.2.2
  · intro m hm
    exact (mem_find_legal_moves.1 hm).2

/-- Evaluation of C8 on a concrete turn: the anchor (0,0) found by the bounded
scan of stateA re-checks as legal and is also found by the emergency scan. -/
theorem claim_C8_witness :
    (0, 0) ∈ find_legal_moves stateA offsA 0 0 ∧
    is_legal_move stateA 0 0 offsA = true ∧
    (0, 0) ∈ emergency_move_search stateA offsA 0 0 := by
  refine ⟨by decide, ?_, ?_⟩
  · exact (claim_C8_find_sound_emergency_superset stateA offsA 0 0).1 (0, 0) (by decide)
  · exact (claim_C8_find_sound_emergency_superset stateA offsA 0 0).2 (0, 0) (by decide)

/-- C10: every anchor accepted by is_legal_move places all its offset cells
within board bounds, so the unchecked board indexing of score_move stays in
bounds: the bounds-checked scoring returns some score instead of the panic
value none, for any distance map (in particular the one make_move passes). -/
theorem claim_C10_legal_anchor_scores_safely (s : GameState) (x y : Int)
    (dist : Nat → Nat → Int) (offs : List PieceOffset)
    (h : is_legal_move s x y offs = true) :
    (∀ off ∈ offs, offInBounds s x y off) ∧
    score_move_checked s x y dist offs = some (score_move s x y dist offs) := by
  have hb := ((is_legal_move_iff s x y offs).1 h).1
  refine ⟨hb, ?_⟩
  unfold score_move_checked
  rw [if_pos]
  rw [List.all_eq_true]
  intro off hoff
  simp only [decide_eq_true_eq]
  exact hb off hoff

theorem mem_pieceCells {s : GameState} {c : Nat × Nat} :
    c ∈ pieceCells s ↔ c.1 < s.piece_width ∧ c.2 < s.piece_height := by
  unfold pieceCells
  cases c with
  | mk x y =>
    simp only [List.mem_flatMap, List.mem_map, List.mem_range, Prod.mk.injEq]
    constructor
    · rintro ⟨y0, hy, x0, hx, rfl, rfl⟩
      exact ⟨hx, hy⟩
    · rintro ⟨hx, hy⟩
      exact ⟨y, hy, x, hx, rfl, rfl⟩

theorem pieceBounds_foldl (s : GameState) (l : List (Nat × Nat))
    (acc : Nat × Nat × Nat × Nat) :
    (l.foldl (pieceBoundsStep s) acc).1 ≤ acc.1 ∧
    acc.2.1 ≤ (l.foldl (pieceBoundsStep s) acc).2.1 ∧
    (l.foldl (pieceBoundsStep s) acc).2.2.1 ≤ acc.2.2.1 ∧
    acc.2.2.2 ≤ (l.foldl (pieceBoundsStep s) acc).2.2.2 ∧
    (∀ c ∈ l, pieceFilledAt s c →
      (l.foldl (pieceBoundsStep s) acc).1 ≤ c.2 ∧
      c.2 ≤ (l.foldl (pieceBoundsStep s) acc).2.1 ∧
      (l.foldl (pieceBoundsStep s) acc).2.2.1 ≤ c.1 ∧
      c.1 ≤ (l.foldl (pieceBoundsStep s) acc).2.2.2) ∧
    ((l.foldl (pieceBoundsStep s) acc).1 = acc.1 ∨
      ∃ c ∈ l, pieceFilledAt s c ∧ (l.foldl (pieceBoundsStep s) acc).1 = c.2) ∧
    ((l.foldl (pieceBoundsStep s) acc).2.1 = acc.2.1 ∨
      ∃ c ∈ l, pieceFilledAt s c ∧ (l.foldl (pieceBoundsStep s) acc).2.1 = c.2) ∧
    ((l.foldl (pieceBoundsStep s) acc).2.2.1 = acc.2.2.1 ∨
      ∃ c ∈ l, pieceFilledAt s c ∧ (l.foldl (pieceBoundsStep s) acc).2.2.1 = c.1) ∧
    ((l.foldl (pieceBoundsStep s) acc).2.2.2 = acc.2.2.2 ∨
      ∃ c ∈ l, pieceFilledAt s c ∧ (l.foldl (pieceBoundsStep s) acc).2.2.2 = c.1) ∧
    ((∀ c ∈ l, ¬ pieceFilledAt s c) → l.foldl (pieceBoundsStep s) acc = acc) := by
  induction l generalizing acc with
  | nil =>
    simp
  | cons c0 l ih =>
    simp only [List.foldl_cons, List.mem_cons]
    obtain ⟨m1, m2, m3, m4, hA, hB1, hB2, hB3, hB4, hC⟩ := ih (pieceBoundsStep s acc c0)
    by_cases hf : pieceFilledAt s c0
    · have hf2 : s.piece c0.2 c0.1 = PieceCell.filled := hf
      have hstep : pieceBoundsStep s acc c0 =
          (min acc.1 c0.2, max acc.2.1 c0.2, min acc.2.2.1 c0.1, max acc.2.2.2 c0.1) := by
        unfold pieceBoundsStep
        rw [if_pos hf2]
      rw [hstep] at m1 m2 m3 m4 hA hB1 hB2 hB3 hB4 hC ⊢
      dsimp only at m1 m2 m3 m4 hA hB1 hB2 hB3 hB4 hC ⊢
      have k1 : min acc.1 c0.2 ≤ acc.1 := min_le_left _ _
      have k2 : min acc.1 c0.2 ≤ c0.2 := min_le_right _ _
      have k3 : acc.2.1 ≤ max acc.2.1 c0.2 := le_max_left _ _
      have k4 : c0.2 ≤ max acc.2.1 c0.2 := le_max_right _ _
      have k5 : min acc.2.2.1 c0.1 ≤ acc.2.2.1 := min_le_left _ _
      have k6 : min acc.2.2.1 c0.1 ≤ c0.1 := min_le_right _ _
      have k7 : acc.2.2.2 ≤ max acc.2.2.2 c0.1 := le_max_left _ _
      have k8 : c0.1 ≤ max acc.2.2.2 c0.1 := le_max_right _ _
      refine ⟨by omega, by omega, by omega, by omega, ?_, ?_, ?_, ?_, ?_, ?_⟩
      · rintro c (rfl | hc) hcf
        · exact ⟨by omega, by omega, by omega, by omega⟩
        · exact hA c hc hcf
      · rcases hB1 with h | ⟨c, hc, hcf, hce⟩
        · rcases min_choice acc.1 c0.2 with hm | hm
          · left; omega
          · right; exact ⟨c0, Or.inl rfl, hf, by omega⟩
        · right; exact ⟨c, Or.inr hc, hcf, hce⟩
      · rcases hB2 with h | ⟨c, hc, hcf, hce⟩
        · rcases max_choice acc.2.1 c0.2 with hm | hm
          · left; omega
          · right; exact ⟨c0, Or.inl rfl, hf, by omega⟩
        · right; exact ⟨c, Or.inr hc, hcf, hce⟩
      · rcases hB3 with h | ⟨c, hc, hcf, hce⟩
        · rcases min_choice acc.2.2.1 c0.1 with hm | hm
          · left; omega
          · right; exact ⟨c0, Or.inl rfl, hf, by omega⟩
        · right; exact ⟨c, Or.inr hc, hcf, hce⟩
      · rcases hB4 with h | ⟨c, hc, hcf, hce⟩
        · rcases max_choice acc.2.2.2 c0.1 with hm | hm
          · left; omega
          · right; exact ⟨c0, Or.inl rfl, hf, by omega⟩
        · right; exact ⟨c, Or.inr hc, hcf, hce⟩
      · intro hnone
        exact absurd hf (hnone c0 (Or.inl rfl))
    · have hf2 : ¬ s.piece c0.2 c0.1 = PieceCell.filled := hf
      have hstep : pieceBoundsStep s acc c0 = acc := by
        unfold pieceBoundsStep
        rw [if_neg hf2]
      rw [hstep] at m1 m2 m3 m4 hA hB1 hB2 hB3 hB4 hC ⊢
      refine ⟨m1, m2, m3, m4, ?_, ?_, ?_, ?_, ?_, ?_⟩
      · rintro c (rfl | hc) hcf
        · exact absurd hcf hf
        · exact hA c hc hcf
      · rcases hB1 with h | ⟨c, hc, hcf, hce⟩
        · left; exact h
        · right; exact ⟨c, Or.inr hc, hcf, hce⟩
      · rcases hB2 with h | ⟨c, hc, hcf, hce⟩
        · left; exact h
        · right; exact ⟨c, Or.inr hc, hcf, hce⟩
      · rcases hB3 with h | ⟨c, hc, hcf, hce⟩
        · left; exact h
        · right; exact ⟨c, Or.inr hc, hcf, hce⟩
      · rcases hB4 with h | ⟨c, hc, hcf, hce⟩
        · left; exact h
        · right; exact ⟨c, Or.inr hc, hcf, hce⟩
      · intro hnone
        exact hC (fun c hc => hnone c (Or.inr hc))

theorem mem_trimOffsets (s : GameState) (mr mc new_h new_w : Nat) (off : PieceOffset) :
    off ∈ (List.range new_h).flatMap
      (fun r => ((List.range new_w).filter
        (fun c => s.piece (mr + r) (mc + c) = PieceCell.filled)).map
        (fun (c : Nat) => PieceOffset.mk (c : Int) (r : Int))) ↔
    ∃ r, r < new_h ∧ ∃ c, c < new_w ∧ s.piece (mr + r) (mc + c) = PieceCell.filled ∧
      off = PieceOffset.mk (c : Int) (r : Int) := by
  simp only [List.mem_flatMap, List.mem_map, List.mem_filter, List.mem_range,
    decide_eq_true_eq]
  constructor
  · rintro ⟨r, hr, c, ⟨hc, hfill⟩, rfl⟩
    exact ⟨r, hr, c, hc, hfill, rfl⟩
  · rintro ⟨r, hr, c, hc, hfill, rfl⟩
    exact ⟨r, hr, c, ⟨hc, hfill⟩, rfl⟩

/-- C5: for every piece with at least one Filled cell, trim_piece returns a
non-empty offset collection holding exactly the filled cells re-based to the
minimal bounding box, whose dx values span exactly 0..(max_col-min_col) and dy
values exactly 0..(max_row-min_row), together with the anchor correction
(min_col, min_row); for a piece (with a non-degenerate grid) holding no filled
cell it returns an empty collection and a zero correction. -/
theorem claim_C5_trim_piece (s : GameState) :
    ((∃ c0 ∈ pieceCells s, pieceFilledAt s c0) →
      (trim_piece_result s).1 ≠ [] ∧
      (∀ c ∈ pieceCells s, pieceFilledAt s c →
        (trim_piece_result s).2.1 ≤ (c.1 : Int) ∧ (trim_piece_result s).2.2 ≤ (c.2 : Int)) ∧
      (∃ c ∈ pieceCells s, pieceFilledAt s c ∧ ((c.1 : Int) = (trim_piece_result s).2.1)) ∧
      (∃ c ∈ pieceCells s, pieceFilledAt s c ∧ ((c.2 : Int) = (trim_piece_result s).2.2)) ∧
      (∀ c ∈ pieceCells s, pieceFilledAt s c →
        PieceOffset.mk ((c.1 : Int) - (trim_piece_result s).2.1)
          ((c.2 : Int) - (trim_piece_result s).2.2) ∈ (trim_piece_result s).1) ∧
      (∀ off ∈ (trim_piece_result s).1, 0 ≤ off.dx ∧ 0 ≤ off.dy ∧
        ∃ c ∈ pieceCells s, pieceFilledAt s c ∧
          (c.1 : Int) = (trim_piece_result s).2.1 + off.dx ∧
          (c.2 : Int) = (trim_piece_result s).2.2 + off.dy) ∧
      (∃ off ∈ (trim_piece_result s).1, off.dx = 0) ∧
      (∃ off ∈ (trim_piece_result s).1, off.dy = 0) ∧
      (∃ maxdx : Int, (∃ off ∈ (trim_piece_result s).1, off.dx = maxdx) ∧
        (∀ off ∈ (trim_piece_result s).1, off.dx ≤ maxdx) ∧
        (∀ c ∈ pieceCells s, pieceFilledAt s c →
          (c.1 : Int) ≤ (trim_piece_result s).2.1 + maxdx)) ∧
      (∃ maxdy : Int, (∃ off ∈ (trim_piece_result s).1, off.dy = maxdy) ∧
        (∀ off ∈ (trim_piece_result s).1, off.dy ≤ maxdy) ∧
        (∀ c ∈ pieceCells s, pieceFilledAt s c →
          (c.2 : Int) ≤ (trim_piece_result s).2.2 + maxdy))) ∧
    ((∀ c ∈ pieceCells s, ¬ pieceFilledAt s c) →
      (0 < s.piece_width ∨ 0 < s.piece_height) →
      trim_piece_result s = ([], 0, 0)) := by
  obtain ⟨m1, m2, m3, m4, hA, hB1, hB2, hB3, hB4, hC⟩ :=
    pieceBounds_foldl s (pieceCells s) (s.piece_height, 0, s.piece_width, 0)
  have hpb : List.foldl (pieceBoundsStep s) (s.piece_height, 0, s.piece_width, 0)
      (pieceCells s) = pieceBounds s := rfl
  rw [hpb] at m1 m2 m3 m4 hA hB1 hB2 hB3 hB4 hC
  dsimp only at m1 m2 m3 m4 hA hB1 hB2 hB3 hB4 hC
  constructor
  · rintro ⟨c0, hc0mem, hc0fill⟩
    have hc0g := mem_pieceCells.1 hc0mem
    have hbc0 := hA c0 hc0mem hc0fill
    have hguard : ¬ ((pieceBounds s).1 > (pieceBounds s).2.1 ∨
        (pieceBounds s).2.2.1 > (pieceBounds s).2.2.2) := by
      push_neg
      constructor
      · exact le_trans hbc0.1 hbc0.2.1
      · exact le_trans hbc0.2.2.1 hbc0.2.2.2
    have hres : trim_piece_result s =
        ((List.range ((pieceBounds s).2.1 - (pieceBounds s).1 + 1)).flatMap
          (fun r => ((List.range ((pieceBounds s).2.2.2 - (pieceBounds s).2.2.1 + 1)).filter
            (fun c => s.piece ((pieceBounds s).1 + r) ((pieceBounds s).2.2.1 + c) =
              PieceCell.filled)).map
            (fun (c : Nat) => PieceOffset.mk (c : Int) (r : Int))),
          ((pieceBounds s).2.2.1 : Int), ((pieceBounds s).1 : Int)) := by
      unfold trim_piece_result
      rw [if_neg hguard]
    -- attainment of the extreme rows and columns
    have hminrow : ∃ c ∈ pieceCells s, pieceFilledAt s c ∧ (pieceBounds s).1 = c.2 := by
      rcases hB1 with h | h
      · exfalso
        have h2 : c0.2 < s.piece_height := hc0g.2
        have h3 : (pieceBounds s).1 ≤ c0.2 := hbc0.1
        omega
      · exact h
    have hmincol : ∃ c ∈ pieceCells s, pieceFilledAt s c ∧ (pieceBounds s).2.2.1 = c.1 := by
      rcases hB3 with h | h
      · exfalso
        have h2 : c0.1 < s.piece_width := hc0g.1
        have h3 : (pieceBounds s).2.2.1 ≤ c0.1 := hbc0.2.2.1
        omega
      · exact h
    have hmaxrow : ∃ c ∈ pieceCells s, pieceFilledAt s c ∧ (pieceBounds s).2.1 = c.2 := by
      rcases hB2 with h | h
      · have h3 : c0.2 ≤ (pieceBounds s).2.1 := hbc0.2.1
        exact ⟨c0, hc0mem, hc0fill, by omega⟩
      · exact h
    have hmaxcol : ∃ c ∈ pieceCells s, pieceFilledAt s c ∧ (pieceBounds s).2.2.2 = c.1 := by
      rcases hB4 with h | h
      · have h3 : c0.1 ≤ (pieceBounds s).2.2.2 := hbc0.2.2.2
        exact ⟨c0, hc0mem, hc0fill, by omega⟩
      · exact h
    -- forward direction: every filled cell appears re-based in the offsets
    have hfwd : ∀ c ∈ pieceCells s, pieceFilledAt s c →
        PieceOffset.mk ((c.1 : Int) - ((pieceBounds s).2.2.1 : Int))
          ((c.2 : Int) - ((pieceBounds s).1 : Int)) ∈ (trim_piece_result s).1 := by
      intro c hcm hcf
      have hb := hA c hcm hcf
      rw [hres]
      rw [mem_trimOffsets]
      refine ⟨c.2 - (pieceBounds s).1, by omega, c.1 - (pieceBounds s).2.2.1, by omega, ?_, ?_⟩
      · have h1 : (pieceBounds s).1 + (c.2 - (pieceBounds s).1) = c.2 := by omega
        have h2 : (pieceBounds s).2.2.1 + (c.1 - (pieceBounds s).2.2.1) = c.1 := by omega
        rw [h1, h2]
        exact hcf
      · have h1 : ((c.1 - (pieceBounds s).2.2.1 : Nat) : Int) =
            (c.1 : Int) - ((pieceBounds s).2.2.1 : Int) := by omega
        have h2 : ((c.2 - (pieceBounds s).1 : Nat) : Int) =
            (c.2 : Int) - ((pieceBounds s).1 : Int) := by omega
        rw [h1, h2]
    -- backward direction: every offset is a re-based filled cell
    have hbwd : ∀ off ∈ (trim_piece_result s).1, 0 ≤ off.dx ∧ 0 ≤ off.dy ∧
        ∃ c ∈ pieceCells s, pieceFilledAt s c ∧
          (c.1 : Int) = ((pieceBounds s).2.2.1 : Int) + off.dx ∧
          (c.2 : Int) = ((pieceBounds s).1 : Int) + off.dy := by
      intro off hoff
      rw [hres] at hoff
      rw [mem_trimOffsets] at hoff
      obtain ⟨r, hr, c, hc, hfill, rfl⟩ := hoff
      obtain ⟨cM, hcMm, hcMf0, hcMe⟩ := hmaxcol
      obtain ⟨rM, hrMm, hrMf0, hrMe⟩ := hmaxrow
      have h1 := (mem_pieceCells.1 hcMm).1
      have h2 := (mem_pieceCells.1 hrMm).2
      refine ⟨by positivity, by positivity,
        ((pieceBounds s).2.2.1 + c, (pieceBounds s).1 + r), ?_, hfill, ?_, ?_⟩
      · rw [mem_pieceCells]
        exact ⟨by omega, by omega⟩
      · dsimp only
        omega
      · dsimp only
        omega
    have hox : (trim_piece_result s).2.1 = ((pieceBounds s).2.2.1 : Int) := by rw [hres]
    have hoy : (trim_piece_result s).2.2 = ((pieceBounds s).1 : Int) := by rw [hres]
    rw [hox, hoy]
    obtain ⟨cm, hcmm, hcmf, hcme⟩ := hmincol
    obtain ⟨rm, hrmm, hrmf, hrme⟩ := hminrow
    obtain ⟨cM, hcMm, hcMf, hcMe⟩ := hmaxcol
    obtain ⟨rM, hrMm, hrMf, hrMe⟩ := hmaxrow
    refine ⟨?_, ?_, ?_, ?_, hfwd, hbwd, ?_, ?_, ?_, ?_⟩
    · intro hnil
      have := hfwd c0 hc0mem hc0fill
      rw [hnil] at this
      exact List.not_mem_nil _ this
    · intro c hcm hcf
      have hb := hA c hcm hcf
      exact ⟨by omega, by omega⟩
    · exact ⟨cm, hcmm, hcmf, by omega⟩
    · exact ⟨rm, hrmm, hrmf, by omega⟩
    · refine ⟨_, hfwd cm hcmm hcmf, ?_⟩
      dsimp only
      omega
    · refine ⟨_, hfwd rm hrmm hrmf, ?_⟩
      dsimp only
      omega
    · refine ⟨(cM.1 : Int) - ((pieceBounds s).2.2.1 : Int),
        ⟨_, hfwd cM hcMm hcMf, rfl⟩, ?_, ?_⟩
      · intro off hoff
        obtain ⟨h1, h2, c, hcm2, hcf2, he1, he2⟩ := hbwd off hoff
        have hb := hA c hcm2 hcf2
        omega
      · intro c hcm2 hcf2
        have hb := hA c hcm2 hcf2
        omega
    · refine ⟨(rM.2 : Int) - ((pieceBounds s).1 : Int),
        ⟨_, hfwd rM hrMm hrMf, rfl⟩, ?_, ?_⟩
      · intro off hoff
        obtain ⟨h1, h2, c, hcm2, hcf2, he1, he2⟩ := hbwd off hoff
        have hb := hA c hcm2 hcf2
        omega
      · intro c hcm2 hcf2
        have hb := hA c hcm2 hcf2
        omega
  · intro hnone hpos
    have hBe : pieceBounds s = (s.piece_height, 0, s.piece_width, 0) := by
      rw [← hpb]
      exact hC hnone
    unfold trim_piece_result
    rw [hBe]
    rw [if_pos]
    dsimp only
    omega

theorem foldl_congr_id {α β : Type} (f : β → α → β) (l : List α) (acc : β)
    (h : ∀ acc2, ∀ a ∈ l, f acc2 a = acc2) : l.foldl f acc = acc := by
  induction l generalizing acc with
  | nil => rfl
  | cons a l ih =>
    rw [List.foldl_cons, h acc a (List.mem_cons_self _ _)]
    exact ih acc (fun acc2 a2 ha2 => h acc2 a2 (List.mem_cons_of_mem _ ha2))

theorem featureStep_not_empty {s : GameState} {x y : Int} {dist : Nat → Nat → Int}
    {off : PieceOffset} (h : boardAt s x y off ≠ Cell.empty)
    (acc : Int × Int × Int × Int) : featureStep s x y dist acc off = acc := by
  unfold featureStep
  rw [if_neg h]

theorem featNew_eq_countP (s : GameState) (x y : Int) (dist : Nat → Nat → Int)
    (offs : List PieceOffset) :
    (moveFeatures s x y dist offs).1 =
      ((offs.countP (fun off => boardAt s x y off = Cell.empty)) : Int) := by
  unfold moveFeatures
  suffices h : ∀ acc : Int × Int × Int × Int,
      (offs.foldl (featureStep s x y dist) acc).1 =
        acc.1 + ((offs.countP (fun off => boardAt s x y off = Cell.empty)) : Int) by
    have h2 := h (0, 0, 0, 0)
    omega
  induction offs with
  | nil =>
    intro acc
    simp [List.countP_nil]
  | cons off rest ih =>
    intro acc
    rw [List.foldl_cons, List.countP_cons]
    by_cases he : boardAt s x y off = Cell.empty
    · have hstep : (featureStep s x y dist acc off).1 = acc.1 + 1 := by
        unfold featureStep
        rw [if_pos he]
      rw [ih, hstep]
      simp only [he, decide_eq_true_eq, if_pos]
      push_cast
      omega
    · rw [featureStep_not_empty he]
      rw [ih]
      have hd : decide (boardAt s x y off = Cell.empty) = false := by
        simp [he]
      rw [hd]
      simp only [Bool.false_eq_true, if_false]
      push_cast
      omega

theorem moveFeatures_zero (s : GameState) (x y : Int) (dist : Nat → Nat → Int)
    (offs : List PieceOffset) (h : (moveFeatures s x y dist offs).1 = 0) :
    moveFeatures s x y dist offs = (0, 0, 0, 0) := by
  have hcount := featNew_eq_countP s x y dist offs
  rw [h] at hcount
  have hzero : offs.countP (fun off => boardAt s x y off = Cell.empty) = 0 := by omega
  have hall : ∀ off ∈ offs, boardAt s x y off ≠ Cell.empty := by
    intro off hoff he
    have := List.countP_eq_zero.1 hzero off hoff
    simp [he] at this
  unfold moveFeatures
  exact foldl_congr_id _ _ _ (fun acc2 a ha => featureStep_not_empty (hall a ha) acc2)

theorem phaseWeights_bounds (occ total : Int) :
    120 ≤ (phaseWeights occ total).1 ∧ 0 ≤ (phaseWeights occ total).2.1 ∧
    0 ≤ (phaseWeights occ total).2.2.1 := by
  unfold phaseWeights
  split_ifs <;> norm_num

theorem cell_eq_myCell {p : Player} {c : Cell} (h1 : c ≠ Cell.empty)
    (h2 : c ≠ opCell p) : c = myCell p := by
  cases p <;> cases c <;> simp_all [myCell, opCell]

/-- C9: for every two anchors on the same board with the same piece whose
scoring features are otherwise equal (equal liberties, opponent adjacency,
heat sum and connectivity distance), the anchor claiming strictly more empty
cells receives a strictly higher score from score_move. -/
theorem claim_C9_more_territory_scores_higher (s : GameState)
    (dist : Nat → Nat → Int) (offs : List PieceOffset) (xa ya xb yb : Int)
    (hlib : (moveFeatures s xa ya dist offs).2.1 = (moveFeatures s xb yb dist offs).2.1)
    (hheat : (moveFeatures s xa ya dist offs).2.2.1 = (moveFeatures s xb yb dist offs).2.2.1)
    (hadj : (moveFeatures s xa ya dist offs).2.2.2 = (moveFeatures s xb yb dist offs).2.2.2)
    (hconn : bestConn s xa ya = bestConn s xb yb)
    (hnew : (moveFeatures s xa ya dist offs).1 < (moveFeatures s xb yb dist offs).1) :
    score_move s xa ya dist offs < score_move s xb yb dist offs := by
  have hw := phaseWeights_bounds (count_my_territory s + count_opponent_territory s)
    ((s.board_width * s.board_height : Nat) : Int)
  have hw1 : 120 ≤ (scoreWeights s).1 := hw.1
  have hconnle : min (bestConn s xb yb) 10 ≤ 10 := min_le_right _ _
  have hca := featNew_eq_countP s xa ya dist offs
  have hcb := featNew_eq_countP s xb yb dist offs
  by_cases hna : (moveFeatures s xa ya dist offs).1 = 0
  · -- the zero-gain anchor gets the sentinel; the other scores at least 120
    have hza := moveFeatures_zero s xa ya dist offs hna
    have hnb : ¬ (moveFeatures s xb yb dist offs).1 = 0 := by omega
    have hlibb : (moveFeatures s xb yb dist offs).2.1 = 0 := by
      rw [← hlib, hza]
    have hheatb : (moveFeatures s xb yb dist offs).2.2.1 = 0 := by
      rw [← hheat, hza]
    have hadjb : (moveFeatures s xb yb dist offs).2.2.2 = 0 := by
      rw [← hadj, hza]
    have hbase : scoreBase s xb yb dist offs =
        (moveFeatures s xb yb dist offs).1 * (scoreWeights s).1 := by
      unfold scoreBase
      rw [hlibb, hheatb, hadjb]
      ring
    have haggr : scoreWithAggression s xb yb dist offs = scoreBase s xb yb dist offs := by
      unfold scoreWithAggression
      split_ifs with h
      · rw [hadjb]; ring
      · rfl
    have hge : 120 ≤ (moveFeatures s xb yb dist offs).1 * (scoreWeights s).1 := by
      have h1 : 1 ≤ (moveFeatures s xb yb dist offs).1 := by omega
      have h2 : 1 * (scoreWeights s).1 ≤
          (moveFeatures s xb yb dist offs).1 * (scoreWeights s).1 :=
        mul_le_mul_of_nonneg_right h1 (by omega)
      rw [one_mul] at h2
      omega
    unfold score_move
    rw [if_pos hna, if_neg hnb, haggr, hbase]
    split_ifs <;> omega
  · have hnb : ¬ (moveFeatures s xb yb dist offs).1 = 0 := by omega
    have hbase : scoreBase s xa ya dist offs + 120 ≤ scoreBase s xb yb dist offs := by
      unfold scoreBase
      rw [hlib, hheat, hadj]
      have h1 : (moveFeatures s xa ya dist offs).1 + 1 ≤
          (moveFeatures s xb yb dist offs).1 := by omega
      have h2 := mul_le_mul_of_nonneg_right h1
        (le_trans (by norm_num : (0 : Int) ≤ 120) hw1)
      rw [add_mul, one_mul] at h2
      omega
    have haggr : scoreWithAggression s xa ya dist offs + 120 ≤
        scoreWithAggression s xb yb dist offs := by
      unfold scoreWithAggression
      rw [hadj]
      split_ifs with h <;> omega
    unfold score_move
    rw [if_neg hna, if_neg hnb, hconn]
    split_ifs with h <;> omega

theorem selectBest_mem (s : GameState) (dm : Nat → Nat → Int)
    (offs : List PieceOffset) (l : List (Int × Int)) (b : Int × Int) (bs : Int) :
    selectBest s dm offs l b bs = b ∨ selectBest s dm offs l b bs ∈ l := by
  induction l generalizing b bs with
  | nil => left; rfl
  | cons m rest ih =>
    unfold selectBest
    split_ifs with h
    · rcases ih m (score_move s m.1 m.2 dm offs) with h2 | h2
      · right; rw [h2]; exact List.mem_cons_self _ _
      · right; exact List.mem_cons_of_mem _ h2
    · rcases ih b bs with h2 | h2
      · left; exact h2
      · right; exact List.mem_cons_of_mem _ h2

theorem mem_effective_legal {s : GameState} {offs : List PieceOffset}
    {tox toy : Int} {m : Int × Int} (hm : m ∈ effective_legal_moves s offs tox toy) :
    is_legal_move s m.1 m.2 offs = true := by
  unfold effective_legal_moves at hm
  split_ifs at hm with h
  · exact (mem_emergency.1 hm).2.2.2.2
  · exact (mem_emergency.1 (mem_find_legal_moves.1 hm).2).2.2.2.2

theorem selected_mem_effective {s : GameState} {offs : List PieceOffset}
    {tox toy : Int} {sel : Int × Int}
    (h : selected_move s offs tox toy = some sel) :
    sel ∈ effective_legal_moves s offs tox toy := by
  unfold selected_move at h
  rcases he : effective_legal_moves s offs tox toy with _ | ⟨m, rest⟩
  · rw [he] at h
    exact absurd h (by simp)
  · rw [he] at h
    simp only [Option.some.injEq] at h
    rcases selectBest_mem s (calculate_distance_map s) offs (m :: rest) m
      (score_move s m.1 m.2 (calculate_distance_map s) offs) with h2 | h2
    · rw [← h, h2]
      exact List.mem_cons_self _ _
    · rw [← h]
      exact h2

theorem legal_zero_gain_singleton {s : GameState} {x y : Int}
    {offs : List PieceOffset} (hleg : is_legal_move s x y offs = true)
    (hzero : offs.countP (fun off => boardAt s x y off = Cell.empty) = 0) :
    ∃ off0, offs = [off0] ∧ boardAt s x y off0 = myCell s.player := by
  obtain ⟨hb, hop, hmy⟩ := (is_legal_move_iff s x y offs).1 hleg
  have hall : ∀ off ∈ offs, boardAt s x y off = myCell s.player := by
    intro off hoff
    have hne : boardAt s x y off ≠ Cell.empty := by
      intro he
      have := List.countP_eq_zero.1 hzero off hoff
      simp [he] at this
    exact cell_eq_myCell hne (hop off hoff)
  have hlen : offs.countP (fun off => boardAt s x y off = myCell s.player) = offs.length := by
    rw [List.countP_eq_length]
    intro off hoff
    simp [hall off hoff]
  have hone : offs.length = 1 := by omega
  obtain ⟨off0, hoff0⟩ := List.length_eq_one.1 hone
  exact ⟨off0, hoff0, hall off0 (by rw [hoff0]; exact List.mem_cons_self _ _)⟩

/-- C7: a placement claiming no empty cell receives the fixed minimum score
i32::MIN/4 from score_move, and make_move never selects a zero-gain anchor
while a legal anchor claiming at least one empty cell exists (with one piece,
a legal zero-gain placement forces a single-offset piece sitting on an own
cell, and then every legal placement of that piece is zero-gain). -/
theorem claim_C7_zero_gain_never_preferred (s : GameState)
    (offs : List PieceOffset) (tox toy x y : Int) (dist : Nat → Nat → Int) :
    ((moveFeatures s x y dist offs).1 = 0 →
      score_move s x y dist offs = -536870912) ∧
    (∀ b ∈ effective_legal_moves s offs tox toy,
      1 ≤ (moveFeatures s b.1 b.2 (calculate_distance_map s) offs).1 →
      ∀ sel, selected_move s offs tox toy = some sel →
        1 ≤ (moveFeatures s sel.1 sel.2 (calculate_distance_map s) offs).1) := by
  constructor
  · intro h
    unfold score_move
    rw [if_pos h]
  · intro b hb hbgain sel hsel
    by_contra hlt
    have hz : (moveFeatures s sel.1 sel.2 (calculate_distance_map s) offs).1 = 0 := by
      have hc := featNew_eq_countP s sel.1 sel.2 (calculate_distance_map s) offs
      omega
    have hcz : offs.countP (fun off => boardAt s sel.1 sel.2 off = Cell.empty) = 0 := by
      have hc := featNew_eq_countP s sel.1 sel.2 (calculate_distance_map s) offs
      omega
    have hsleg := mem_effective_legal (selected_mem_effective hsel)
    obtain ⟨off0, hoffs, _⟩ := legal_zero_gain_singleton hsleg hcz
    have hbleg := mem_effective_legal hb
    obtain ⟨_, _, hbmy⟩ := (is_legal_move_iff s b.1 b.2 offs).1 hbleg
    rw [hoffs] at hbmy
    have hb0 : boardAt s b.1 b.2 off0 = myCell s.player := by
      rw [List.countP_cons, List.countP_nil] at hbmy
      by_cases hx : boardAt s b.1 b.2 off0 = myCell s.player
      · exact hx
      · simp [hx] at hbmy
    have hbcount := featNew_eq_countP s b.1 b.2 (calculate_distance_map s) offs
    rw [hoffs] at hbcount
    rw [List.countP_cons, List.countP_nil] at hbcount
    have hbne : ¬ boardAt s b.1 b.2 off0 = Cell.empty := by
      rw [hb0]
      cases hp : s.player <;> simp [myCell]
    rw [hoffs] at hbgain
    have hd : decide (boardAt s b.1 b.2 off0 = Cell.empty) = false := by
      simp [hbne]
    rw [hd] at hbcount
    simp only [Bool.false_eq_true, if_false] at hbcount
    omega

/-- Evaluation of C5 on a concrete piece: the stateA piece has a filled cell,
so its trimmed offsets are non-empty. -/
theorem claim_C5_witness :
    (∃ c0 ∈ pieceCells stateA, pieceFilledAt stateA c0) ∧
    (trim_piece_result stateA).1 ≠ [] := by
  have h : ∃ c0 ∈ pieceCells stateA, pieceFilledAt stateA c0 := by decide
  exact ⟨h, ((claim_C5_trim_piece stateA).1 h).1⟩

/-- Evaluation of C9 on a concrete turn: in stateB the anchor (1,0) claims one
empty cell while (0,0) claims none, all other features equal, and it scores
strictly higher. -/
theorem claim_C9_witness :
    (moveFeatures stateB 0 0 (calculate_distance_map stateB) offsB).2.1 =
      (moveFeatures stateB 1 0 (calculate_distance_map stateB) offsB).2.1 ∧
    (moveFeatures stateB 0 0 (calculate_distance_map stateB) offsB).2.2.1 =
      (moveFeatures stateB 1 0 (calculate_distance_map stateB) offsB).2.2.1 ∧
    (moveFeatures stateB 0 0 (calculate_distance_map stateB) offsB).2.2.2 =
      (moveFeatures stateB 1 0 (calculate_distance_map stateB) offsB).2.2.2 ∧
    bestConn stateB 0 0 = bestConn stateB 1 0 ∧
    (moveFeatures stateB 0 0 (calculate_distance_map stateB) offsB).1 <
      (moveFeatures stateB 1 0 (calculate_distance_map stateB) offsB).1 ∧
    score_move stateB 0 0 (calculate_distance_map stateB) offsB <
      score_move stateB 1 0 (calculate_distance_map stateB) offsB := by
  refine ⟨by decide, by decide, by decide, by decide, by decide, ?_⟩
  exact claim_C9_more_territory_scores_higher stateB (calculate_distance_map stateB)
    offsB 0 0 1 0 (by decide) (by decide) (by decide) (by decide) (by decide)

/-- Evaluation of C7 on a concrete turn: in stateA the anchor (0,0) is a legal
gaining move, and the selected move indeed claims at least one empty cell. -/
theorem claim_C7_witness :
    (0, 0) ∈ effective_legal_moves stateA offsA 0 0 ∧
    1 ≤ (moveFeatures stateA 0 0 (calculate_distance_map stateA) offsA).1 ∧
    selected_move stateA offsA 0 0 = some (0, 0) ∧
    1 ≤ (moveFeatures stateA 0 0 (calculate_distance_map stateA) offsA).1 := by
  refine ⟨by decide, by decide, by decide, ?_⟩
  exact (claim_C7_zero_gain_never_preferred stateA offsA 0 0 0 0
      (calculate_distance_map stateA)).2 (0, 0) (by decide) (by decide) (0, 0) (by decide)

theorem scanRow_pairwise (s : GameState) (offs : List PieceOffset)
    (sx ex y : Int) : (scanRow s offs sx ex y).Pairwise anchorLexLt := by
  unfold scanRow
  have hp : (List.filter (fun x => is_legal_move s x y offs) (intRange sx ex)).Pairwise
      (· < ·) :=
    List.Pairwise.sublist (List.filter_sublist _) (intRange_pairwise sx ex)
  exact List.Pairwise.map _ (fun a b hab => Or.inr ⟨rfl, hab⟩) hp

theorem emergency_pairwise (s : GameState) (offs : List PieceOffset)
    (tox toy : Int) : (emergency_move_search s offs tox toy).Pairwise anchorLexLt := by
  unfold emergency_move_search
  rw [List.flatMap_def, List.pairwise_flatten]
  constructor
  · intro l hl
    rw [List.mem_map] at hl
    obtain ⟨y, _, rfl⟩ := hl
    exact scanRow_pairwise s offs _ _ y
  · rw [List.pairwise_map]
    refine List.Pairwise.imp ?_ (intRange_pairwise toy _)
    intro y1 y2 h12 a ha b hb
    have ha2 := (mem_scanRow.1 ha).1
    have hb2 := (mem_scanRow.1 hb).1
    exact Or.inl (by omega)

theorem find_pairwise (s : GameState) (offs : List PieceOffset)
    (tox toy : Int) : (find_legal_moves s offs tox toy).Pairwise anchorLexLt := by
  unfold find_legal_moves
  split_ifs with h
  · exact List.Pairwise.nil
  · have := emergency_pairwise s offs tox toy
    unfold emergency_move_search at this
    exact this

theorem effective_pairwise (s : GameState) (offs : List PieceOffset)
    (tox toy : Int) : (effective_legal_moves s offs tox toy).Pairwise anchorLexLt := by
  unfold effective_legal_moves
  split_ifs with h
  · exact emergency_pairwise s offs tox toy
  · exact find_pairwise s offs tox toy

theorem selectBest_spec (s : GameState) (dm : Nat → Nat → Int)
    (offs : List PieceOffset) (l : List (Int × Int)) :
    ∀ (b r : Int × Int), l.Pairwise anchorLexLt → (∀ m ∈ l, anchorLexLt b m) →
      r = selectBest s dm offs l b (score_move s b.1 b.2 dm offs) →
      (r = b ∨ (r ∈ l ∧
        score_move s b.1 b.2 dm offs < score_move s r.1 r.2 dm offs)) ∧
      (∀ m ∈ l, score_move s m.1 m.2 dm offs < score_move s r.1 r.2 dm offs ∨
        (score_move s m.1 m.2 dm offs = score_move s r.1 r.2 dm offs ∧
          (m = r ∨ anchorLexLt r m))) := by
  induction l with
  | nil =>
    intro b r _ _ hr
    refine ⟨Or.inl ?_, by simp⟩
    rw [hr]
    rfl
  | cons e t ih =>
    intro b r hsort hb hr
    obtain ⟨hrel, htail⟩ := List.pairwise_cons.1 hsort
    unfold selectBest at hr
    by_cases h : score_move s b.1 b.2 dm offs < score_move s e.1 e.2 dm offs
    · rw [if_pos h] at hr
      obtain ⟨ih1, ih2⟩ := ih e r htail hrel hr
      constructor
      · rcases ih1 with rfl | ⟨hmem, hlt⟩
        · exact Or.inr ⟨List.mem_cons_self _ _, h⟩
        · exact Or.inr ⟨List.mem_cons_of_mem _ hmem, lt_trans h hlt⟩
      · intro m hm
        rcases List.mem_cons.1 hm with rfl | hm2
        · rcases ih1 with rfl | ⟨hmem, hlt⟩
          · exact Or.inr ⟨rfl, Or.inl rfl⟩
          · exact Or.inl hlt
        · exact ih2 m hm2
    · rw [if_neg h] at hr
      obtain ⟨ih1, ih2⟩ := ih b r htail
        (fun m hm => hb m (List.mem_cons_of_mem _ hm)) hr
      constructor
      · rcases ih1 with rfl | ⟨hmem, hlt⟩
        · exact Or.inl rfl
        · exact Or.inr ⟨List.mem_cons_of_mem _ hmem, hlt⟩
      intro m hm
      rcases List.mem_cons.1 hm with rfl | hm2
      · push_neg at h
        have hble : score_move s b.1 b.2 dm offs ≤ score_move s r.1 r.2 dm offs := by
          rcases ih1 with rfl | ⟨_, hlt⟩
          · exact le_refl _
          · exact le_of_lt hlt
        rcases lt_or_eq_of_le (le_trans h hble) with hlt | heq
        · exact Or.inl hlt
        · refine Or.inr ⟨heq, ?_⟩
          have hbr : r = b := by
            rcases ih1 with rfl | ⟨_, hlt⟩
            · rfl
            · exfalso
              omega
          rw [hbr]
          exact Or.inr (hb m (List.mem_cons_self _ _))
      · exact ih2 m hm2

theorem scoredMoveCmp_lt {a b : ScoredMove}
    (h : a.score < b.score ∨ (a.score = b.score ∧
      (b.y < a.y ∨ (b.y = a.y ∧ b.x < a.x)))) :
    ScoredMove.cmp a b = Ordering.lt := by
  unfold ScoredMove.cmp
  rcases h with h | ⟨he, h⟩
  · have hc : compare a.score b.score = Ordering.lt := compare_lt_iff_lt.2 h
    rw [hc]
    rfl
  · have hc : compare a.score b.score = Ordering.eq := by
      rw [compare_eq_iff_eq]
      exact he
    rw [hc]
    simp only [ne_eq, not_true_eq_false, if_false]
    rcases h with h | ⟨hey, h⟩
    · have hy : compare b.y a.y = Ordering.lt := compare_lt_iff_lt.2 h
      rw [hy]
      rfl
    · have hy : compare b.y a.y = Ordering.eq := by
        rw [compare_eq_iff_eq]
        exact hey
      rw [hy]
      simp only [ne_eq, not_true_eq_false, if_false]
      exact compare_lt_iff_lt.2 h

/-- C2: whenever the turn has a non-empty candidate set, the anchor make_move
selects is the maximum of that set under the ScoredMove total order: strictly
higher score than every other candidate, or equal score and lower y, then
lower x; in particular the selection is unambiguous. -/
theorem claim_C2_selection_is_scored_maximum (s : GameState)
    (offs : List PieceOffset) (tox toy : Int) (sel : Int × Int)
    (h : selected_move s offs tox toy = some sel) :
    sel ∈ effective_legal_moves s offs tox toy ∧
    ∀ m ∈ effective_legal_moves s offs tox toy, m ≠ sel →
      ScoredMove.cmp
        ⟨m.1, m.2, score_move s m.1 m.2 (calculate_distance_map s) offs⟩
        ⟨sel.1, sel.2, score_move s sel.1 sel.2 (calculate_distance_map s) offs⟩ =
        Ordering.lt := by
  refine ⟨selected_mem_effective h, ?_⟩
  unfold selected_move at h
  rcases he : effective_legal_moves s offs tox toy with _ | ⟨m0, rest⟩
  · rw [he] at h
    exact absurd h (by simp)
  · rw [he] at h
    simp only [Option.some.injEq] at h
    have hpw := effective_pairwise s offs tox toy
    rw [he] at hpw
    obtain ⟨hrel, htail⟩ := List.pairwise_cons.1 hpw
    have hstep : selectBest s (calculate_distance_map s) offs (m0 :: rest) m0
        (score_move s m0.1 m0.2 (calculate_distance_map s) offs) =
        selectBest s (calculate_distance_map s) offs rest m0
        (score_move s m0.1 m0.2 (calculate_distance_map s) offs) := by
      unfold selectBest
      rw [if_neg (lt_irrefl _)]
      cases rest with
      | nil => rfl
      | cons a t => rfl
    rw [hstep] at h
    obtain ⟨h1, h2⟩ := selectBest_spec s (calculate_distance_map s) offs rest m0 sel
      htail hrel h.symm
    intro m hm hne
    rcases List.mem_cons.1 hm with rfl | hm2
    · -- m is the head m0
      rcases h1 with rfl | ⟨hmem, hlt⟩
      · exact absurd rfl hne
      · exact scoredMoveCmp_lt (Or.inl hlt)
    · rcases h2 m hm2 with hlt | ⟨heq, hor⟩
      · exact scoredMoveCmp_lt (Or.inl hlt)
      · rcases hor with rfl | hlex
        · exact absurd rfl hne
        · rcases hlex with hy | ⟨hy, hx⟩
          · exact scoredMoveCmp_lt (Or.inr ⟨heq, Or.inl hy⟩)
          · exact scoredMoveCmp_lt (Or.inr ⟨heq, Or.inr ⟨hy, hx⟩⟩)

/-- Evaluation of C2 on a concrete turn: in stateA the selected anchor (0,0)
is a member of the candidate set and beats every other candidate under the
ScoredMove order. -/
theorem claim_C2_witness :
    selected_move stateA offsA 0 0 = some (0, 0) ∧
    (0, 0) ∈ effective_legal_moves stateA offsA 0 0 := by
  refine ⟨by decide, ?_⟩
  exact (claim_C2_selection_is_scored_maximum stateA offsA 0 0 (0, 0) (by decide)).1

theorem is_legal_move_nil (s : GameState) (x y : Int) :
    is_legal_move s x y [] = false := by
  rfl

theorem emergency_empty_of_offs_nil (s : GameState) (tox toy : Int) :
    emergency_move_search s [] tox toy = [] := by
  rw [List.eq_nil_iff_forall_not_mem]
  intro m hm
  have := (mem_emergency.1 hm).2.2.2.2
  rw [is_legal_move_nil] at this
  exact absurd this (by simp)

theorem find_empty_of_emergency_empty {s : GameState} {offs : List PieceOffset}
    {tox toy : Int} (h : emergency_move_search s offs tox toy = []) :
    find_legal_moves s offs tox toy = [] := by
  rw [List.eq_nil_iff_forall_not_mem]
  intro m hm
  have := (mem_find_legal_moves.1 hm).2
  rw [h] at this
  exact List.not_mem_nil _ this

theorem effective_empty_iff {s : GameState} {offs : List PieceOffset} {tox toy : Int} :
    effective_legal_moves s offs tox toy = [] ↔
      emergency_move_search s offs tox toy = [] := by
  unfold effective_legal_moves
  constructor
  · intro h
    split_ifs at h with hf
    · exact h
    · exact absurd (by rw [h]; rfl : (find_legal_moves s offs tox toy).isEmpty = true) hf
  · intro h
    split_ifs with hf
    · exact h
    · rw [List.isEmpty_iff] at hf
      exact absurd (find_empty_of_emergency_empty h) hf

theorem selected_none_iff {s : GameState} {offs : List PieceOffset} {tox toy : Int} :
    selected_move s offs tox toy = none ↔
      emergency_move_search s offs tox toy = [] := by
  rw [← effective_empty_iff]
  unfold selected_move
  rcases he : effective_legal_moves s offs tox toy with _ | ⟨m, rest⟩
  · simp
  · simp

/-- C4: make_move emits one pair of non-negative integers per turn: the pass
sentinel (0, 0) when no legal move survives the emergency scan (in particular
when the piece has no filled cell, or when its bounding box fits nowhere, both
of which empty the scans rather than crashing), and otherwise the winning
anchor translated into the original piece frame by subtracting the trim
correction, clamped at zero. -/
theorem claim_C4_output_shape (s : GameState) (offs : List PieceOffset)
    (tox toy : Int) :
    (0 ≤ (make_move_output s offs tox toy).1 ∧
      0 ≤ (make_move_output s offs tox toy).2) ∧
    (emergency_move_search s offs tox toy = [] →
      make_move_output s offs tox toy = (0, 0)) ∧
    (offs = [] → make_move_output s offs tox toy = (0, 0)) ∧
    (∀ sel, selected_move s offs tox toy = some sel →
      make_move_output s offs tox toy =
        (max (sel.1 - tox) 0, max (sel.2 - toy) 0)) := by
  have hout : ∀ h : emergency_move_search s offs tox toy = [],
      make_move_output s offs tox toy = (0, 0) := by
    intro h
    unfold make_move_output
    rw [selected_none_iff.2 h]
  refine ⟨?_, hout, ?_, ?_⟩
  · unfold make_move_output
    rcases hsel : selected_move s offs tox toy with _ | sel
    · constructor <;> norm_num
    · constructor
      · exact le_max_right _ _
      · exact le_max_right _ _
  · intro h
    subst h
    exact hout (emergency_empty_of_offs_nil s tox toy)
  · intro sel hsel
    unfold make_move_output
    rw [hsel]

/-- Evaluation of C4 on concrete turns: stateP yields the pass sentinel, and
stateA yields the selected anchor translated by the trim correction. -/
theorem claim_C4_witness :
    emergency_move_search stateP offsP 1 0 = [] ∧
    make_move_output stateP offsP 1 0 = (0, 0) ∧
    selected_move stateA offsA 0 0 = some (0, 0) ∧
    make_move_output stateA offsA 0 0 = (max (0 - 0) 0, max (0 - 0) 0) := by
  refine ⟨by decide, ?_, by decide, ?_⟩
  · exact (claim_C4_output_shape stateP offsP 1 0).2.1 (by decide)
  · exact (claim_C4_output_shape stateA offsA 0 0).2.2.2 (0, 0) (by decide)

/-- C3 counterexample: in stateP (mover owns the single cell of a 1 by 1
board; trim correction (1, 0)) the anchor (0, 0) of the full board is legal,
yet both the bounded scan and the emergency scan return nothing and the turn
is declared to have no legal move — the emergency scan does not cover the
full board from (0, 0) and a legal move is missed. -/
theorem claim_C3_counterexample :
    is_legal_move stateP 0 0 offsP = true ∧
    find_legal_moves stateP offsP 1 0 = [] ∧
    emergency_move_search stateP offsP 1 0 = [] ∧
    make_move_output stateP offsP 1 0 = (0, 0) := by
  decide

/-- C3 (amended): when the bounded scan finds nothing, make_move runs the
emergency search before declaring no legal move; however that search scans
the same window as the bounded scan — anchors from (trim_off_x, trim_off_y)
to (board_width - piece_width + trim_off_x, board_height - piece_height +
trim_off_y) — not the full board from (0, 0), differing from the bounded
scan only by the missing piece-larger-than-board early return; it therefore
finds a superset of the bounded scan's anchors, the turn is declared to have
no legal move exactly when it is empty, and legal anchors left of or above
the trim-correction origin can be missed. -/
theorem claim_C3_amended_emergency_window (s : GameState)
    (offs : List PieceOffset) (tox toy : Int) :
    (¬ (s.piece_width > s.board_width ∨ s.piece_height > s.board_height) →
      emergency_move_search s offs tox toy = find_legal_moves s offs tox toy) ∧
    (∀ m ∈ find_legal_moves s offs tox toy, m ∈ emergency_move_search s offs tox toy) ∧
    (∀ m ∈ emergency_move_search s offs tox toy,
      toy ≤ m.2 ∧ m.2 ≤ (s.board_height : Int) - (s.piece_height : Int) + toy ∧
      tox ≤ m.1 ∧ m.1 ≤ (s.board_width : Int) - (s.piece_width : Int) + tox) ∧
    (selected_move s offs tox toy = none ↔
      emergency_move_search s offs tox toy = []) := by
  refine ⟨?_, ?_, ?_, selected_none_iff⟩
  · intro hg
    unfold find_legal_moves emergency_move_search
    rw [if_neg hg]
  · intro m hm
    exact (mem_find_legal_moves.1 hm).2
  · intro m hm
    have h := mem_emergency.1 hm
    exact ⟨h.1, h.2.1, h.2.2.1, h.2.2.2.1⟩

/-- Evaluation of the amended C3 on a concrete turn: in stateA the two scans
coincide. -/
theorem claim_C3_witness :
    emergency_move_search stateA offsA 0 0 = find_legal_moves stateA offsA 0 0 :=
  (claim_C3_amended_emergency_window stateA offsA 0 0).1 (by decide)

theorem adjacentCells_symm {a b : Nat × Nat} (h : adjacentCells a b) :
    adjacentCells b a := by
  unfold adjacentCells at *
  omega

theorem adjacent_iff_direction (a b : Nat × Nat) :
    adjacentCells a b ↔ ∃ d ∈ bfsDirections,
      (b.1 : Int) = (a.1 : Int) + d.1 ∧ (b.2 : Int) = (a.2 : Int) + d.2 := by
  unfold adjacentCells bfsDirections
  constructor
  · intro h
    rcases h with ⟨hx, hy | hy⟩ | ⟨hy, hx | hx⟩
    · exact ⟨(0, 1), by simp, by omega, by omega⟩
    · exact ⟨(0, -1), by simp, by omega, by omega⟩
    · exact ⟨(1, 0), by simp, by omega, by omega⟩
    · exact ⟨(-1, 0), by simp, by omega, by omega⟩
  · rintro ⟨d, hd, h1, h2⟩
    simp only [List.mem_cons, List.not_mem_nil, or_false] at hd
    rcases hd with rfl | rfl | rfl | rfl
    · simp only at h1 h2
      omega
    · simp only at h1 h2
      omega
    · simp only at h1 h2
      omega
    · simp only at h1 h2
      omega

theorem reach_inGrid {s : GameState} {p : Nat × Nat} {d : Nat}
    (h : Reach s p d) : inGrid s p := by
  cases h with
  | base _ hg _ => exact hg
  | step _ _ _ _ _ hg => exact hg

theorem reach_zero_inv {s : GameState} {p : Nat × Nat}
    (h : Reach s p 0) : inGrid s p ∧ isOppCell s p := by
  cases h with
  | base _ hg ho => exact ⟨hg, ho⟩

theorem reach_succ_inv {s : GameState} {p : Nat × Nat} {d : Nat}
    (h : Reach s p (d + 1)) :
    ∃ k, Reach s k d ∧ adjacentCells k p ∧ inGrid s p := by
  cases h with
  | step k _ _ hk hadj hg => exact ⟨k, hk, hadj, hg⟩

theorem gridCells_nodup (s : GameState) : (gridCells s).Nodup := by
  unfold gridCells
  rw [List.flatMap_def]
  show List.Pairwise _ _
  rw [List.pairwise_flatten]
  constructor
  · intro l hl
    rw [List.mem_map] at hl
    obtain ⟨y, _, rfl⟩ := hl
    show List.Pairwise _ _
    refine List.Pairwise.map _ ?_ (List.pairwise_lt_range s.board_width)
    intro a b hab
    simp only [ne_eq, Prod.mk.injEq, not_and]
    intro h
    omega
  · rw [List.pairwise_map]
    refine List.Pairwise.imp ?_ (List.pairwise_lt_range s.board_height)
    intro y1 y2 h12 a ha b hb
    rw [List.mem_map] at ha hb
    obtain ⟨x1, _, rfl⟩ := ha
    obtain ⟨x2, _, rfl⟩ := hb
    simp only [ne_eq, Prod.mk.injEq, not_and]
    intro h
    omega

theorem pairwise_of_const {α : Type} (l : List α) (f : α → Int) (v : Int)
    (h : ∀ a ∈ l, f a = v) : l.Pairwise (fun a b => f a ≤ f b) := by
  induction l with
  | nil => exact List.Pairwise.nil
  | cons a t ih =>
    rw [List.pairwise_cons]
    constructor
    · intro b hb
      rw [h a (List.mem_cons_self _ _), h b (List.mem_cons_of_mem _ hb)]
    · exact ih (fun b hb => h b (List.mem_cons_of_mem _ hb))

theorem mem_initialQueue {s : GameState} {c : Nat × Nat} :
    c ∈ initialQueue s ↔ inGrid s c ∧ isOppCell s c := by
  unfold initialQueue
  rw [List.mem_filter, mem_gridCells]
  constructor
  · rintro ⟨h1, h2⟩
    exact ⟨h1, of_decide_eq_true h2⟩
  · rintro ⟨h1, h2⟩
    exact ⟨h1, decide_eq_true h2⟩

theorem initialDM_spec (s : GameState) (j i : Nat) :
    (initialDistanceMap s j i = -1 ∨ initialDistanceMap s j i = 0) ∧
    (initialDistanceMap s j i ≠ -1 ↔
      (i < s.board_width ∧ j < s.board_height ∧ s.board j i = opCell s.player)) := by
  unfold initialDistanceMap
  split_ifs with h
  · simp [h]
  · simp [h]

theorem unvisitedCount_congr (s : GameState) {dm dm2 : Nat → Nat → Int}
    (h : ∀ j i, i < s.board_width → j < s.board_height → dm j i = dm2 j i) :
    unvisitedCount s dm = unvisitedCount s dm2 := by
  unfold unvisitedCount
  congr 1
  refine Finset.filter_congr ?_
  intro c hc
  rw [Finset.mem_product, Finset.mem_range, Finset.mem_range] at hc
  rw [h c.2 c.1 hc.1 hc.2]

theorem unvisitedCount_le (s : GameState) (dm : Nat → Nat → Int) :
    unvisitedCount s dm ≤ s.board_width * s.board_height := by
  unfold unvisitedCount
  calc ((Finset.range s.board_width ×ˢ Finset.range s.board_height).filter
        (fun c => dm c.2 c.1 = -1)).card
      ≤ (Finset.range s.board_width ×ˢ Finset.range s.board_height).card :=
        Finset.card_filter_le _ _
    _ = s.board_width * s.board_height := by
        rw [Finset.card_product, Finset.card_range, Finset.card_range]

theorem unvisitedCount_drop (s : GameState) (dm dm2 : Nat → Nat → Int)
    (pushed : List (Nat × Nat)) (hnd : pushed.Nodup)
    (hmono : ∀ j i, dm2 j i = dm j i ∨ (dm j i = -1 ∧ dm2 j i ≠ -1))
    (hpush : ∀ p ∈ pushed, inGrid s p ∧ dm p.2 p.1 = -1 ∧ dm2 p.2 p.1 ≠ -1) :
    unvisitedCount s dm2 + pushed.length ≤ unvisitedCount s dm := by
  unfold unvisitedCount
  set G := Finset.range s.board_width ×ˢ Finset.range s.board_height with hG
  set U := G.filter (fun c => dm c.2 c.1 = -1) with hU
  set U2 := G.filter (fun c => dm2 c.2 c.1 = -1) with hU2
  set P := pushed.toFinset with hP
  have hPU : P ⊆ U := by
    intro p hp
    rw [hP, List.mem_toFinset] at hp
    obtain ⟨hg, h1, _⟩ := hpush p hp
    rw [hU, Finset.mem_filter]
    refine ⟨?_, by simp [h1]⟩
    rw [hG, Finset.mem_product, Finset.mem_range, Finset.mem_range]
    exact ⟨hg.1, hg.2⟩
  have hU2sub : U2 ⊆ U \ P := by
    intro c hc
    rw [hU2, Finset.mem_filter] at hc
    obtain ⟨hcg, hc2⟩ := hc
    rw [Finset.mem_sdiff]
    constructor
    · rw [hU, Finset.mem_filter]
      refine ⟨hcg, ?_⟩
      rcases hmono c.2 c.1 with h | ⟨h1, h2⟩
      · simp [← h, hc2]
      · exact absurd hc2 h2
    · intro hcp
      rw [hP, List.mem_toFinset] at hcp
      exact (hpush c hcp).2.2 hc2
  have hcard : U2.card ≤ U.card - P.card := by
    calc U2.card ≤ (U \ P).card := Finset.card_le_card hU2sub
      _ = U.card - P.card := Finset.card_sdiff hPU
  have hPcard : P.card = pushed.length := by
    rw [hP]
    exact List.toFinset_card_of_nodup hnd
  have hPle : P.card ≤ U.card := Finset.card_le_card hPU
  omega

theorem tryPush_foldl_spec (s : GameState) (cur : Int) (x y : Nat) (hcur : 0 ≤ cur) :
    ∀ (ds : List (Int × Int)) (st0 st : (Nat → Nat → Int) × List (Nat × Nat)),
    st = ds.foldl (tryPush s cur x y) st0 →
    (∀ p ∈ st0.2, st0.1 p.2 p.1 ≠ -1) → st0.2.Nodup →
    ((∀ j i, st.1 j i = st0.1 j i ∨
        (st0.1 j i = -1 ∧ st.1 j i = cur + 1 ∧ i < s.board_width ∧ j < s.board_height ∧
          (i, j) ∈ st.2)) ∧
     (∃ new, st.2 = st0.2 ++ new ∧ ∀ p ∈ new, inGrid s p ∧ st0.1 p.2 p.1 = -1 ∧
        st.1 p.2 p.1 = cur + 1 ∧
        ∃ d ∈ ds, (p.1 : Int) = (x : Int) + d.1 ∧ (p.2 : Int) = (y : Int) + d.2) ∧
     (∀ d ∈ ds, ∀ p : Nat × Nat, (p.1 : Int) = (x : Int) + d.1 →
        (p.2 : Int) = (y : Int) + d.2 → inGrid s p → st0.1 p.2 p.1 = -1 →
        p ∈ st.2 ∧ st.1 p.2 p.1 = cur + 1) ∧
     (∀ p ∈ st.2, st.1 p.2 p.1 ≠ -1) ∧
     st.2.Nodup) := by
  intro ds
  induction ds with
  | nil =>
    intro st0 st hst h0 hnd
    subst hst
    exact ⟨fun j i => Or.inl rfl, ⟨[], by simp, by simp⟩, by simp, h0, hnd⟩
  | cons d0 ds ih =>
    intro st0 st hst h0 hnd
    rw [List.foldl_cons] at hst
    by_cases hb : (0 ≤ (x : Int) + d0.1 ∧ (x : Int) + d0.1 < (s.board_width : Int) ∧
        0 ≤ (y : Int) + d0.2 ∧ (y : Int) + d0.2 < (s.board_height : Int))
    · by_cases hv : st0.1 ((y : Int) + d0.2).toNat ((x : Int) + d0.1).toNat = -1
      · -- the neighbour is pushed
        have hstep : tryPush s cur x y st0 d0 =
            (fun j i => if j = ((y : Int) + d0.2).toNat ∧ i = ((x : Int) + d0.1).toNat
              then cur + 1 else st0.1 j i,
             st0.2 ++ [(((x : Int) + d0.1).toNat, ((y : Int) + d0.2).toNat)]) := by
          unfold tryPush
          rw [if_pos hb, if_pos hv]
        rw [hstep] at hst
        have htx : ((((x : Int) + d0.1).toNat : Nat) : Int) = (x : Int) + d0.1 :=
          Int.toNat_of_nonneg hb.1
        have hty : ((((y : Int) + d0.2).toNat : Nat) : Int) = (y : Int) + d0.2 :=
          Int.toNat_of_nonneg hb.2.2.1
        have htxW : ((x : Int) + d0.1).toNat < s.board_width := by omega
        have htyH : ((y : Int) + d0.2).toNat < s.board_height := by omega
        have h0' : ∀ p ∈ (st0.2 ++ [(((x : Int) + d0.1).toNat, ((y : Int) + d0.2).toNat)]),
            (fun j i => if j = ((y : Int) + d0.2).toNat ∧ i = ((x : Int) + d0.1).toNat
              then cur + 1 else st0.1 j i) p.2 p.1 ≠ -1 := by
          intro p hp
          rcases List.mem_append.1 hp with hp | hp
          · by_cases ht : p.2 = ((y : Int) + d0.2).toNat ∧ p.1 = ((x : Int) + d0.1).toNat
            · simp only [ht, and_self, if_true]
              omega
            · simp only [if_neg ht]
              exact h0 p hp
          · rw [List.mem_singleton] at hp
            subst hp
            simp only [and_self, if_true]
            omega
        have hnd' : (st0.2 ++ [(((x : Int) + d0.1).toNat, ((y : Int) + d0.2).toNat)]).Nodup := by
          rw [List.nodup_append]
          refine ⟨hnd, List.nodup_singleton _, ?_⟩
          intro a ha hb2
          rw [List.mem_singleton] at hb2
          subst hb2
          exact h0 _ ha hv
        obtain ⟨C1, ⟨new2, hneweq, hnew⟩, C3, C4, C5⟩ := ih _ st hst h0' hnd'
        dsimp only at C1 hneweq hnew C3
        have ht0mem : ((((x : Int) + d0.1).toNat, ((y : Int) + d0.2).toNat)) ∈ st.2 := by
          rw [hneweq]
          simp
        have hstt : st.1 ((y : Int) + d0.2).toNat ((x : Int) + d0.1).toNat = cur + 1 := by
          rcases C1 ((y : Int) + d0.2).toNat ((x : Int) + d0.1).toNat with h | ⟨h1, _⟩
          · rw [h]
            simp
          · exfalso
            simp only [and_self, if_true] at h1
            omega
        refine ⟨?_, ?_, ?_, C4, C5⟩
        · -- pointwise clause
          intro j i
          rcases C1 j i with h | ⟨h1, h2, h3, h4, h5⟩
          · by_cases ht : j = ((y : Int) + d0.2).toNat ∧ i = ((x : Int) + d0.1).toNat
            · right
              obtain ⟨rfl, rfl⟩ := ht
              refine ⟨hv, ?_, htxW, htyH, ht0mem⟩
              rw [h]
              simp
            · left
              rw [h]
              simp only [if_neg ht]
          · right
            have hnt : ¬ (j = ((y : Int) + d0.2).toNat ∧ i = ((x : Int) + d0.1).toNat) := by
              intro ht
              rw [if_pos ht] at h1
              omega
            rw [if_neg hnt] at h1
            exact ⟨h1, h2, h3, h4, h5⟩
        · -- queue append clause
          refine ⟨(((x : Int) + d0.1).toNat, ((y : Int) + d0.2).toNat) :: new2, ?_, ?_⟩
          · rw [hneweq, List.append_assoc]
            rfl
          · intro p hp
            rcases List.mem_cons.1 hp with rfl | hp
            · refine ⟨⟨htxW, htyH⟩, hv, hstt, d0, List.mem_cons_self _ _, ?_, ?_⟩
              · exact htx
              · exact hty
            · obtain ⟨hg, h1, h2, d, hd, hco⟩ := hnew p hp
              have hnt : ¬ (p.2 = ((y : Int) + d0.2).toNat ∧ p.1 = ((x : Int) + d0.1).toNat) := by
                intro ht
                rw [if_pos ht] at h1
                omega
              rw [if_neg hnt] at h1
              exact ⟨hg, h1, h2, d, List.mem_cons_of_mem _ hd, hco⟩
        · -- completeness clause
          intro d hd p hp1 hp2 hgp hp0
          rcases List.mem_cons.1 hd with rfl | hd
          · have hpeq : p = ((((x : Int) + d.1).toNat, ((y : Int) + d.2).toNat)) := by
              have e1 : p.1 = ((x : Int) + d.1).toNat := by omega
              have e2 : p.2 = ((y : Int) + d.2).toNat := by omega
              exact Prod.ext e1 e2
            rw [hpeq]
            exact ⟨ht0mem, hstt⟩
          · by_cases hpt : p = ((((x : Int) + d0.1).toNat, ((y : Int) + d0.2).toNat))
            · rw [hpt]
              exact ⟨ht0mem, hstt⟩
            · have hnt : ¬ (p.2 = ((y : Int) + d0.2).toNat ∧ p.1 = ((x : Int) + d0.1).toNat) := by
                intro ht
                exact hpt (Prod.ext ht.2 ht.1)
              refine C3 d hd p hp1 hp2 hgp ?_
              simp only [if_neg hnt]
              exact hp0
      · -- in bounds but already visited: no push
        have hstep : tryPush s cur x y st0 d0 = st0 := by
          unfold tryPush
          rw [if_pos hb, if_neg hv]
        rw [hstep] at hst
        obtain ⟨C1, ⟨new2, hneweq, hnew⟩, C3, C4, C5⟩ := ih st0 st hst h0 hnd
        refine ⟨C1, ⟨new2, hneweq, ?_⟩, ?_, C4, C5⟩
        · intro p hp
          obtain ⟨hg, h1, h2, d, hd, hco⟩ := hnew p hp
          exact ⟨hg, h1, h2, d, List.mem_cons_of_mem _ hd, hco⟩
        · intro d hd p hp1 hp2 hgp hp0
          rcases List.mem_cons.1 hd with rfl | hd
          · exfalso
            have e1 : p.1 = ((x : Int) + d.1).toNat := by omega
            have e2 : p.2 = ((y : Int) + d.2).toNat := by omega
            rw [e1, e2] at hp0
            exact hv hp0
          · exact C3 d hd p hp1 hp2 hgp hp0
    · -- out of bounds: no push
      have hstep : tryPush s cur x y st0 d0 = st0 := by
        unfold tryPush
        rw [if_neg hb]
      rw [hstep] at hst
      obtain ⟨C1, ⟨new2, hneweq, hnew⟩, C3, C4, C5⟩ := ih st0 st hst h0 hnd
      refine ⟨C1, ⟨new2, hneweq, ?_⟩, ?_, C4, C5⟩
      · intro p hp
        obtain ⟨hg, h1, h2, d, hd, hco⟩ := hnew p hp
        exact ⟨hg, h1, h2, d, List.mem_cons_of_mem _ hd, hco⟩
      · intro d hd p hp1 hp2 hgp hp0
        rcases List.mem_cons.1 hd with rfl | hd
        · exfalso
          obtain ⟨hgx, hgy⟩ := hgp
          omega
        · exact C3 d hd p hp1 hp2 hgp hp0

theorem pairwise_le_transfer (l : List (Nat × Nat)) (f g : Nat × Nat → Int)
    (h : ∀ a ∈ l, f a = g a) (hp : l.Pairwise (fun a b => f a ≤ f b)) :
    l.Pairwise (fun a b => g a ≤ g b) := by
  induction l with
  | nil => exact List.Pairwise.nil
  | cons a t ih =>
    obtain ⟨h1, h2⟩ := List.pairwise_cons.1 hp
    rw [List.pairwise_cons]
    constructor
    · intro b hb
      rw [← h a (List.mem_cons_self _ _), ← h b (List.mem_cons_of_mem _ hb)]
      exact h1 b hb
    · exact ih (fun b hb => h b (List.mem_cons_of_mem _ hb)) h2

theorem bfsFinal_of_inv_empty {s : GameState} {dm : Nat → Nat → Int}
    (hinv : BfsInv s dm []) : BfsFinal s dm := by
  obtain ⟨_, _, I1, I5, I4, _, _, _⟩ := hinv
  refine ⟨I1, I5, ?_⟩
  intro j i hji p hadj hg
  rcases I4 j i hji with hmem | hnb
  · exact absurd hmem (List.not_mem_nil _)
  · exact hnb p hadj hg

theorem bfsLoop_correct (s : GameState) :
    ∀ (fuel : Nat) (dm : Nat → Nat → Int) (q : List (Nat × Nat)),
    BfsInv s dm q → unvisitedCount s dm + q.length ≤ fuel →
    BfsFinal s (bfsLoop s fuel dm q) := by
  intro fuel
  induction fuel with
  | zero =>
    intro dm q hinv hfuel
    have hq : q = [] := by
      cases q with
      | nil => rfl
      | cons a t =>
        exfalso
        simp only [List.length_cons] at hfuel
        omega
    subst hq
    exact bfsFinal_of_inv_empty hinv
  | succ fuel ih =>
    intro dm q hinv hfuel
    cases q with
    | nil =>
      exact bfsFinal_of_inv_empty hinv
    | cons c rest =>
      obtain ⟨hq, hnd, I1, I5, I4, I2, I3, I6⟩ := hinv
      have hcg : inGrid s c := (hq c (List.mem_cons_self _ _)).1
      have hc0 : 0 ≤ dm c.2 c.1 := (hq c (List.mem_cons_self _ _)).2
      have hcne : dm c.2 c.1 ≠ -1 := by omega
      have hloop : bfsLoop s (fuel + 1) dm (c :: rest) =
          bfsLoop s fuel
            (bfsDirections.foldl (tryPush s (dm c.2 c.1) c.1 c.2) (dm, [])).1
            (rest ++ (bfsDirections.foldl (tryPush s (dm c.2 c.1) c.1 c.2) (dm, [])).2) :=
        rfl
      rw [hloop]
      obtain ⟨C1, ⟨pushed, hpeq, hpush⟩, C3, C4, C5⟩ :=
        tryPush_foldl_spec s (dm c.2 c.1) c.1 c.2 hc0 bfsDirections (dm, [])
          (bfsDirections.foldl (tryPush s (dm c.2 c.1) c.1 c.2) (dm, [])) rfl
          (by intro p hp; exact absurd hp (List.not_mem_nil p)) List.nodup_nil
      set st := bfsDirections.foldl (tryPush s (dm c.2 c.1) c.1 c.2) (dm, []) with hstdef
      dsimp only at C1 hpeq hpush C3 C4 C5
      rw [List.nil_append] at hpeq
      -- restated fold facts
      have hpushP : ∀ p ∈ pushed, inGrid s p ∧ dm p.2 p.1 = -1 ∧
          st.1 p.2 p.1 = dm c.2 c.1 + 1 ∧ adjacentCells c p := by
        intro p hp
        obtain ⟨hg, h1, h2, d, hd, hco⟩ := hpush p hp
        refine ⟨hg, h1, h2, ?_⟩
        rw [adjacent_iff_direction]
        exact ⟨d, hd, hco⟩
      have hmono : ∀ j i, st.1 j i = dm j i ∨
          (dm j i = -1 ∧ st.1 j i = dm c.2 c.1 + 1 ∧ i < s.board_width ∧
            j < s.board_height ∧ (i, j) ∈ pushed) := by
        intro j i
        rcases C1 j i with h | ⟨h1, h2, h3, h4, h5⟩
        · exact Or.inl h
        · rw [hpeq] at h5
          exact Or.inr ⟨h1, h2, h3, h4, h5⟩
      have hkeep : ∀ j i, dm j i ≠ -1 → st.1 j i = dm j i := by
        intro j i hne
        rcases hmono j i with h | ⟨h1, _⟩
        · exact h
        · exact absurd h1 hne
      have hstne : ∀ j i, dm j i ≠ -1 → st.1 j i ≠ -1 := by
        intro j i hne
        rw [hkeep j i hne]
        exact hne
      have hstne2 : ∀ j i, st.1 j i ≠ -1 → dm j i ≠ -1 ∨ (i, j) ∈ pushed := by
        intro j i hne
        rcases hmono j i with h | ⟨h1, _, _, _, h5⟩
        · rw [h] at hne
          exact Or.inl hne
        · exact Or.inr h5
      have hrestv : ∀ p ∈ rest, dm c.2 c.1 ≤ dm p.2 p.1 ∧
          dm p.2 p.1 ≤ dm c.2 c.1 + 1 := by
        intro p hp
        constructor
        · exact (List.pairwise_cons.1 I2).1 p hp
        · exact I3 c (List.mem_cons_self _ _) p (List.mem_cons_of_mem _ hp)
      have hrestne : ∀ p ∈ rest, dm p.2 p.1 ≠ -1 := by
        intro p hp
        have := (hq p (List.mem_cons_of_mem _ hp)).2
        omega
      have hrestkeep : ∀ p ∈ rest, st.1 p.2 p.1 = dm p.2 p.1 := by
        intro p hp
        exact hkeep p.2 p.1 (hrestne p hp)
      -- all values in the new queue lie in [cur, cur+1]
      have hqv : ∀ p ∈ rest ++ pushed, dm c.2 c.1 ≤ st.1 p.2 p.1 ∧
          st.1 p.2 p.1 ≤ dm c.2 c.1 + 1 := by
        intro p hp
        rcases List.mem_append.1 hp with hp | hp
        · rw [hrestkeep p hp]
          exact hrestv p hp
        · rw [(hpushP p hp).2.2.1]
          omega
      -- new queue basic facts
      have hq' : ∀ p ∈ rest ++ pushed, inGrid s p ∧ 0 ≤ st.1 p.2 p.1 := by
        intro p hp
        rcases List.mem_append.1 hp with hp2 | hp2
        · refine ⟨(hq p (List.mem_cons_of_mem _ hp2)).1, ?_⟩
          rw [hrestkeep p hp2]
          exact (hq p (List.mem_cons_of_mem _ hp2)).2
        · refine ⟨(hpushP p hp2).1, ?_⟩
          rw [(hpushP p hp2).2.2.1]
          omega
      have hnd' : (rest ++ pushed).Nodup := by
        rw [List.nodup_append]
        refine ⟨(List.nodup_cons.1 hnd).2, ?_, ?_⟩
        · rw [hpeq] at C5
          exact C5
        · intro a ha hb
          exact (hrestne a ha) (hpushP a hb).2.1
      -- exactness for the new map
      have I1' : ∀ j i, st.1 j i ≠ -1 →
          i < s.board_width ∧ j < s.board_height ∧ 0 ≤ st.1 j i ∧
          Reach s (i, j) (st.1 j i).toNat ∧
          ∀ d : Nat, (d : Int) < st.1 j i → ¬ Reach s (i, j) d := by
        intro j i hne
        rcases hmono j i with h | ⟨h1, h2, h3, h4, h5⟩
        · rw [h] at hne ⊢
          exact I1 j i hne
        · obtain ⟨_, _, _, hreach, _⟩ := I1 c.2 c.1 hcne
          have hradd : Reach s (i, j) ((dm c.2 c.1).toNat + 1) := by
            refine Reach.step _ _ _ ?_ ((hpushP (i, j) h5).2.2.2) ⟨h3, h4⟩
            exact hreach
          have htn : (dm c.2 c.1 + 1).toNat = (dm c.2 c.1).toNat + 1 := by omega
          rw [h2, htn]
          refine ⟨h3, h4, by omega, hradd, ?_⟩
          intro d hd hr
          have := I6 c rest rfl (i, j) d hr (by omega)
          exact this h1
      -- opponent cells keep value 0
      have I5' : ∀ j i, i < s.board_width → j < s.board_height →
          isOppCell s (i, j) → st.1 j i = 0 := by
        intro j i h1 h2 h3
        have h0 := I5 j i h1 h2 h3
        rw [hkeep j i (by omega)]
        exact h0
      -- frontier property for the new state
      have I4' : ∀ j i, st.1 j i ≠ -1 → (i, j) ∈ rest ++ pushed ∨
          ∀ p, adjacentCells (i, j) p → inGrid s p → st.1 p.2 p.1 ≠ -1 := by
        intro j i hne
        rcases hstne2 j i hne with hdm | hpu
        · rcases I4 j i hdm with hmem | hnb
          · rcases List.mem_cons.1 hmem with hic | hic
            · -- the popped cell: all its neighbours are now visited
              right
              intro p hadj hg
              by_cases hpv : dm p.2 p.1 = -1
              · obtain ⟨d, hd, hco⟩ := (adjacent_iff_direction (i, j) p).1 hadj
                have hic2 : c = (i, j) := by rw [hic]
                rw [← hic2] at hco
                have := C3 d hd p hco.1 hco.2 hg hpv
                rw [this.2]
                omega
              · exact hstne p.2 p.1 hpv
            · exact Or.inl (List.mem_append.2 (Or.inl hic))
          · right
            intro p hadj hg
            exact hstne p.2 p.1 (hnb p hadj hg)
        · exact Or.inl (List.mem_append.2 (Or.inr hpu))
      -- sortedness for the new queue
      have I2' : (rest ++ pushed).Pairwise
          (fun a b => st.1 a.2 a.1 ≤ st.1 b.2 b.1) := by
        rw [List.pairwise_append]
        refine ⟨?_, ?_, ?_⟩
        · refine pairwise_le_transfer rest (fun p => dm p.2 p.1) (fun p => st.1 p.2 p.1)
            (fun a ha => (hrestkeep a ha).symm) ?_
          exact (List.pairwise_cons.1 I2).2
        · refine pairwise_of_const pushed (fun p => st.1 p.2 p.1) (dm c.2 c.1 + 1) ?_
          intro a ha
          exact (hpushP a ha).2.2.1
        · intro a ha b hb
          rw [hrestkeep a ha, (hpushP b hb).2.2.1]
          exact (hrestv a ha).2
      -- spread for the new queue
      have I3' : ∀ a ∈ rest ++ pushed, ∀ b ∈ rest ++ pushed,
          st.1 b.2 b.1 ≤ st.1 a.2 a.1 + 1 := by
        intro a ha b hb
        have h1 := hqv a ha
        have h2 := hqv b hb
        omega
      -- level completeness for the new queue
      have I6' : ∀ f rest2, rest ++ pushed = f :: rest2 → ∀ p, ∀ d : Nat,
          Reach s p d → (d : Int) ≤ st.1 f.2 f.1 → st.1 p.2 p.1 ≠ -1 := by
        intro f rest2 heq p d hr hd
        have hfmem : f ∈ rest ++ pushed := by
          rw [heq]
          exact List.mem_cons_self _ _
        have hfv := hqv f hfmem
        by_cases hdc : (d : Int) ≤ dm c.2 c.1
        · exact hstne p.2 p.1 (I6 c rest rfl p d hr hdc)
        · -- d = cur + 1 and the front value is cur + 1
          have hd1 : (d : Int) = dm c.2 c.1 + 1 := by omega
          have hdn : d = (dm c.2 c.1).toNat + 1 := by omega
          rw [hdn] at hr
          obtain ⟨k, hk, hadjk, hgp⟩ := reach_succ_inv hr
          have hkvis : dm k.2 k.1 ≠ -1 := I6 c rest rfl k (dm c.2 c.1).toNat hk (by omega)
          obtain ⟨_, _, _, _, hkmin⟩ := I1 k.2 k.1 hkvis
          have hkle : dm k.2 k.1 ≤ dm c.2 c.1 := by
            by_contra hlt
            exact hkmin (dm c.2 c.1).toNat (by omega) hk
          have hkst : st.1 k.2 k.1 = dm k.2 k.1 := hkeep k.2 k.1 hkvis
          have hknotin : k ∉ rest ++ pushed := by
            intro hkin
            rcases List.mem_cons.1 (heq ▸ hkin) with hkf | hkr2
            · rw [hkf] at hkst hkle
              omega
            · have : st.1 f.2 f.1 ≤ st.1 k.2 k.1 := by
                have hp2 := List.pairwise_cons.1 (heq ▸ I2')
                exact hp2.1 k hkr2
              omega
          rcases I4' k.2 k.1 (by rw [hkst]; omega) with hin | hnb
          · exact absurd hin hknotin
          · exact hnb p hadjk hgp
      -- the measure strictly decreased
      have hdrop : unvisitedCount s st.1 + pushed.length ≤ unvisitedCount s dm := by
        refine unvisitedCount_drop s dm st.1 pushed ?_ ?_ ?_
        · rw [hpeq] at C5
          exact C5
        · intro j i
          rcases hmono j i with h | ⟨h1, h2, _⟩
          · exact Or.inl h
          · refine Or.inr ⟨h1, ?_⟩
            rw [h2]
            omega
        · intro p hp
          obtain ⟨hg, h1, h2, _⟩ := hpushP p hp
          refine ⟨hg, h1, ?_⟩
          rw [h2]
          omega
      have hfuel' : unvisitedCount s st.1 + (rest ++ pushed).length ≤ fuel := by
        rw [List.length_append]
        simp only [List.length_cons] at hfuel
        omega
      rw [hpeq]
      exact ih st.1 (rest ++ pushed) ⟨hq', hnd', I1', I5', I4', I2', I3', I6'⟩ hfuel'

theorem initial_bfsInv (s : GameState) :
    BfsInv s (initialDistanceMap s) (initialQueue s) := by
  have hdm0 : ∀ p : Nat × Nat, inGrid s p → isOppCell s p →
      initialDistanceMap s p.2 p.1 = 0 := by
    intro p hg ho
    unfold initialDistanceMap
    rw [if_pos ⟨hg.1, hg.2, ho⟩]
  refine ⟨?_, ?_, ?_, ?_, ?_, ?_, ?_, ?_⟩
  · intro p hp
    obtain ⟨hg, ho⟩ := mem_initialQueue.1 hp
    refine ⟨hg, ?_⟩
    rw [hdm0 p hg ho]
  · exact (gridCells_nodup s).filter _
  · intro j i hne
    obtain ⟨h1, h2⟩ := initialDM_spec s j i
    obtain ⟨hw, hh, ho⟩ := h2.1 hne
    have h0 : initialDistanceMap s j i = 0 := hdm0 (i, j) ⟨hw, hh⟩ ho
    rw [h0]
    refine ⟨hw, hh, le_refl 0, ?_, ?_⟩
    · exact Reach.base (i, j) ⟨hw, hh⟩ ho
    · intro d hd
      exact absurd hd (by omega)
  · intro j i hw hh ho
    exact hdm0 (i, j) ⟨hw, hh⟩ ho
  · intro j i hne
    obtain ⟨_, h2⟩ := initialDM_spec s j i
    obtain ⟨hw, hh, ho⟩ := h2.1 hne
    exact Or.inl (mem_initialQueue.2 ⟨⟨hw, hh⟩, ho⟩)
  · refine pairwise_of_const _ _ 0 ?_
    intro p hp
    obtain ⟨hg, ho⟩ := mem_initialQueue.1 hp
    exact hdm0 p hg ho
  · intro a ha b hb
    obtain ⟨hga, hoa⟩ := mem_initialQueue.1 ha
    obtain ⟨hgb, hob⟩ := mem_initialQueue.1 hb
    rw [hdm0 a hga hoa, hdm0 b hgb hob]
    omega
  · intro f rest heq p d hr hd
    have hf : f ∈ initialQueue s := by
      rw [heq]
      exact List.mem_cons_self _ _
    obtain ⟨hgf, hof⟩ := mem_initialQueue.1 hf
    rw [hdm0 f hgf hof] at hd
    have hd0 : d = 0 := by omega
    subst hd0
    obtain ⟨hgp, hop⟩ := reach_zero_inv hr
    rw [hdm0 p hgp hop]
    omega

theorem calculate_distance_map_final (s : GameState) :
    BfsFinal s (calculate_distance_map s) := by
  unfold calculate_distance_map
  refine bfsLoop_correct s _ _ _ (initial_bfsInv s) ?_
  have := unvisitedCount_le s (initialDistanceMap s)
  omega

theorem reach_visited {s : GameState} {dm : Nat → Nat → Int}
    (hfin : BfsFinal s dm) {p : Nat × Nat} {d : Nat} (hr : Reach s p d) :
    dm p.2 p.1 ≠ -1 := by
  induction hr with
  | base c hg ho =>
    rw [hfin.2.1 c.2 c.1 hg.1 hg.2 ho]
    omega
  | step c c2 d hrc hadj hg ihc =>
    exact hfin.2.2 c.2 c.1 ihc c2 hadj hg

/-- C6: calculate_distance_map assigns 0 exactly to the opponent-owned cells,
assigns every cell 4-connectedly reachable from an opponent cell its exact
shortest-path step distance to the nearest opponent cell (each positive
finite value is one more than some neighbour's value and at most every
neighbour's value plus one), and leaves the -1 sentinel on every cell with no
path to an opponent cell. -/
theorem claim_C6_distance_map_exact (s : GameState) (c : Nat × Nat)
    (hc : inGrid s c) :
    (calculate_distance_map s c.2 c.1 = 0 ↔ isOppCell s c) ∧
    ((∃ d : Nat, Reach s c d) →
      0 ≤ calculate_distance_map s c.2 c.1 ∧
      Reach s c (calculate_distance_map s c.2 c.1).toNat ∧
      (∀ d : Nat, (d : Int) < calculate_distance_map s c.2 c.1 → ¬ Reach s c d)) ∧
    ((∀ d : Nat, ¬ Reach s c d) → calculate_distance_map s c.2 c.1 = -1) ∧
    (0 < calculate_distance_map s c.2 c.1 →
      ∃ p, adjacentCells c p ∧ inGrid s p ∧
        calculate_distance_map s p.2 p.1 = calculate_distance_map s c.2 c.1 - 1) ∧
    (∀ p, adjacentCells c p → inGrid s p →
      calculate_distance_map s c.2 c.1 ≠ -1 →
      calculate_distance_map s p.2 p.1 ≠ -1 ∧
      calculate_distance_map s c.2 c.1 ≤ calculate_distance_map s p.2 p.1 + 1) := by
  have hfin := calculate_distance_map_final s
  obtain ⟨F1, F2, F3⟩ := hfin
  have hexact : ∀ p : Nat × Nat, calculate_distance_map s p.2 p.1 ≠ -1 →
      0 ≤ calculate_distance_map s p.2 p.1 ∧
      Reach s p (calculate_distance_map s p.2 p.1).toNat ∧
      (∀ d : Nat, (d : Int) < calculate_distance_map s p.2 p.1 → ¬ Reach s p d) := by
    intro p hne
    obtain ⟨_, _, h3, h4, h5⟩ := F1 p.2 p.1 hne
    exact ⟨h3, h4, h5⟩
  refine ⟨?_, ?_, ?_, ?_, ?_⟩
  · constructor
    · intro h0
      have hne : calculate_distance_map s c.2 c.1 ≠ -1 := by omega
      obtain ⟨_, h4, _⟩ := hexact c hne
      rw [h0] at h4
      exact (reach_zero_inv h4).2
    · intro ho
      exact F2 c.2 c.1 hc.1 hc.2 ho
  · rintro ⟨d, hr⟩
    exact hexact c (reach_visited ⟨F1, F2, F3⟩ hr)
  · intro hnone
    by_contra hne
    obtain ⟨_, h4, _⟩ := hexact c hne
    exact hnone _ h4
  · intro hpos
    have hne : calculate_distance_map s c.2 c.1 ≠ -1 := by omega
    obtain ⟨h3, h4, h5⟩ := hexact c hne
    have he : (calculate_distance_map s c.2 c.1).toNat =
        ((calculate_distance_map s c.2 c.1).toNat - 1) + 1 := by omega
    rw [he] at h4
    obtain ⟨k, hk, hadj, _⟩ := reach_succ_inv h4
    have hkg : inGrid s k := reach_inGrid hk
    have hkne : calculate_distance_map s k.2 k.1 ≠ -1 :=
      reach_visited ⟨F1, F2, F3⟩ hk
    obtain ⟨hk3, hk4, hk5⟩ := hexact k hkne
    have hkub : calculate_distance_map s k.2 k.1 ≤
        ((calculate_distance_map s c.2 c.1).toNat - 1 : Nat) := by
      by_contra hlt
      exact hk5 _ (by omega) hk
    have hklb : calculate_distance_map s c.2 c.1 ≤
        calculate_distance_map s k.2 k.1 + 1 := by
      by_contra hlt
      refine h5 ((calculate_distance_map s k.2 k.1).toNat + 1) (by omega) ?_
      exact Reach.step k c _ hk4 hadj hc
    refine ⟨k, adjacentCells_symm hadj, hkg, by omega⟩
  · intro p hadj hg hne
    obtain ⟨h3, h4, h5⟩ := hexact c hne
    have hrp : Reach s p ((calculate_distance_map s c.2 c.1).toNat + 1) :=
      Reach.step c p _ h4 hadj hg
    have hpne : calculate_distance_map s p.2 p.1 ≠ -1 :=
      reach_visited ⟨F1, F2, F3⟩ hrp
    obtain ⟨hp3, hp4, _⟩ := hexact p hpne
    have hcle : calculate_distance_map s c.2 c.1 ≤
        calculate_distance_map s p.2 p.1 + 1 := by
      by_contra hlt
      refine h5 ((calculate_distance_map s p.2 p.1).toNat + 1) (by omega) ?_
      exact Reach.step p c _ hp4 (adjacentCells_symm hadj) hc
    exact ⟨hpne, hcle⟩

/-- Evaluation of C6 on a concrete turn: in stateA the cell (2, 0), adjacent
to the opponent cell (2, 1), satisfies the distance-map characterization. -/
theorem claim_C6_witness :
    (calculate_distance_map stateA 0 2 = 0 ↔ isOppCell stateA (2, 0)) ∧
    ((∃ d : Nat, Reach stateA (2, 0) d) →
      0 ≤ calculate_distance_map stateA 0 2 ∧
      Reach stateA (2, 0) (calculate_distance_map stateA 0 2).toNat ∧
      (∀ d : Nat, (d : Int) < calculate_distance_map stateA 0 2 →
        ¬ Reach stateA (2, 0) d)) ∧
    ((∀ d : Nat, ¬ Reach stateA (2, 0) d) → calculate_distance_map stateA 0 2 = -1) ∧
    (0 < calculate_distance_map stateA 0 2 →
      ∃ p, adjacentCells (2, 0) p ∧ inGrid stateA p ∧
        calculate_distance_map stateA p.2 p.1 = calculate_distance_map stateA 0 2 - 1) ∧
    (∀ p, adjacentCells (2, 0) p → inGrid stateA p →
      calculate_distance_map stateA 0 2 ≠ -1 →
      calculate_distance_map stateA p.2 p.1 ≠ -1 ∧
      calculate_distance_map stateA 0 2 ≤ calculate_distance_map stateA p.2 p.1 + 1) :=
  claim_C6_distance_map_exact stateA (2, 0) (by decide)

/-- Evaluation of C10 on a concrete turn: the legal anchor (0,0) of stateA is
in bounds and its checked score is defined. -/
theorem claim_C10_witness :
    is_legal_move stateA 0 0 offsA = true ∧
    (∀ off ∈ offsA, offInBounds stateA 0 0 off) ∧
    score_move_checked stateA 0 0 (calculate_distance_map stateA) offsA =
      some (score_move stateA 0 0 (calculate_distance_map stateA) offsA) := by
  refine ⟨by decide, ?_, ?_⟩
  · exact (claim_C10_legal_anchor_scores_safely stateA 0 0
      (calculate_distance_map stateA) offsA (by decide)).1
  · exact (claim_C10_legal_anchor_scores_safely stateA 0 0
      (calculate_distance_map stateA) offsA (by decide)).2

end Filler
